import Mathlib

/-!
# Verification of the SafeGuardAI query-processing pipeline

Shallow embedding of the pure algorithms of the repository
`sanaabuzaid/safeguardai` (files `safety/ai_utils/agents.py`,
`safety/ai_utils/rag_system.py`, `safety/security.py`,
`safety/whatsapp_integration.py`), together with proofs and refutations of
the specification's claims about them.

Strings are embedded as `List Char` (Python `str` of the ASCII inputs the
claims are about); floating-point distances and timestamps are embedded as
`ℚ`, which is order-faithful because the code only compares and takes
minima, never rounds. All recursion is structural (fuel-based where the
source loops), so every definition evaluates by `decide`/`rfl`.
-/

set_option maxRecDepth 10000

namespace SafeguardAI

/-! ## Shared string primitives (Python `str` operations on ASCII text) -/

/-- Python whitespace class `\s` restricted to ASCII:
space, tab, newline, carriage return, vertical tab, form feed. -/
def pyIsSpace (c : Char) : Bool :=
  c = ' ' || c = '\t' || c = '\n' || c = '\r' || c = Char.ofNat 11 || c = Char.ofNat 12

/-- Python `str.strip()`: drop whitespace from both ends. -/
def stripList (l : List Char) : List Char :=
  ((l.dropWhile pyIsSpace).reverse.dropWhile pyIsSpace).reverse

/-- Python `str.rstrip()`: drop whitespace from the right end. -/
def rstripList (l : List Char) : List Char :=
  (l.reverse.dropWhile pyIsSpace).reverse

/-- Python `str.lower()` on ASCII text. -/
def lowerList (l : List Char) : List Char := l.map Char.toLower

/-- `subAt needle hay`: the needle occurs at the start of the haystack
(Python `hay.startswith(needle)`). -/
def subAt : List Char → List Char → Bool
  | [], _ => true
  | _ :: _, [] => false
  | a :: as, b :: bs => a = b && subAt as bs

/-- `hasSub hay needle`: the needle occurs contiguously somewhere in the
haystack (Python `needle in hay`). -/
def hasSub (hay needle : List Char) : Bool :=
  match hay with
  | [] => needle.isEmpty
  | _ :: t => subAt needle hay || hasSub t needle

/-- The apostrophe character, built by code point to keep source text plain. -/
def apos : Char := Char.ofNat 39

/-! ## C2 — `_classify_not_in_docs_reply` (agents.py lines 66-79)

```python
an = re.sub(r'\s+', ' ', answer.strip()).lower()
nn = re.sub(r'\s+', ' ', not_in_docs_msg.strip()).lower()
exact = an == nn
contains_phrase = (
    "isn't in our safety documents" in an
    or "not in our safety documents" in an
    or (nn and nn[:50] in an)
)
short_refusal = len(an) <= len(nn) * 2 and contains_phrase
replace_with_fallback = exact or short_refusal
omit_sources = contains_phrase
return (replace_with_fallback, omit_sources)
```
-/

/-- Collapse each run of whitespace to a single space
(Python `re.sub(r'\s+', ' ', s)`), with fuel for structural recursion. -/
def collapseWsFuel : Nat → List Char → List Char
  | 0, l => l
  | _ + 1, [] => []
  | fuel + 1, c :: rest =>
    if pyIsSpace c then ' ' :: collapseWsFuel fuel (rest.dropWhile pyIsSpace)
    else c :: collapseWsFuel fuel rest

/-- Python `re.sub(r'\s+', ' ', s.strip()).lower()`: the normalization the
not-in-documents classifier applies to both strings. -/
def normWs (l : List Char) : List Char :=
  lowerList (collapseWsFuel l.length (stripList l))

/-- The refusal phrase `"isn't in our safety documents"`. -/
def refusalPhrase1 : List Char :=
  "isn".data ++ [apos] ++ "t in our safety documents".data

/-- The refusal phrase `"not in our safety documents"`. -/
def refusalPhrase2 : List Char := "not in our safety documents".data

/-- `_classify_not_in_docs_reply(answer, not_in_docs_msg)`:
returns `(replace_with_fallback, omit_sources)`. -/
def _classify_not_in_docs_reply (answer notMsg : List Char) :
    Bool × Bool :=
  let an := normWs answer
  let nn := normWs notMsg
  let exact := an = nn
  let contains_phrase :=
    hasSub an refusalPhrase1 || hasSub an refusalPhrase2 ||
      (!nn.isEmpty && hasSub an (nn.take 50))
  let short_refusal := an.length ≤ nn.length * 2 && contains_phrase
  (exact || short_refusal, contains_phrase)

/-- The replacement step at agents.py lines 465-468: on a fallback match the
answer is replaced by the canonical message verbatim and sources cleared;
`omit_sources` is reported either way. -/
def applyNotInDocsStage (answer : List Char) (sources : List String)
    (notMsg : List Char) : List Char × List String × Bool :=
  let r := _classify_not_in_docs_reply answer notMsg
  (if r.1 then notMsg else answer, if r.1 then [] else sources, r.2)

/-- The spec's wording of the match condition, as written: exactly equal, OR
(a recognizable refusal phrase AND at most twice the canonical length), OR
(unconditionally) containing the canonical message's first 50 characters. -/
def specC2MatchPred (answer notMsg : List Char) : Bool :=
  let an := normWs answer
  let nn := normWs notMsg
  (an = nn : Bool) ||
    ((hasSub an refusalPhrase1 || hasSub an refusalPhrase2) &&
      an.length ≤ nn.length * 2) ||
    (!nn.isEmpty && hasSub an (nn.take 50))

/-- The canonical message of the claim's example:
`"This isn't in our safety documents."`. -/
def canonMsgC2 : List Char :=
  "This isn".data ++ [apos] ++ "t in our safety documents.".data

/-- The model output of the claim's example:
`"This isn't in our safety documents. Please ask your HSE officer."`. -/
def exAnsC2 : List Char :=
  "This isn".data ++ [apos] ++
    "t in our safety documents. Please ask your HSE officer.".data

/-- C2, counterexample. The claim's "if and only if" makes containing the
canonical message's first 50 characters an unconditional match reason; in
the code that reason is still gated by the twice-the-canonical-length bound
(`short_refusal = len(an) <= len(nn) * 2 and contains_phrase`). With
canonical message `"xyz"` and answer `"xyz aaaaaaaa"` (longer than twice
the canonical message, containing its first 50 characters, containing no
refusal phrase), the spec-worded predicate marks the answer for
replacement but `_classify_not_in_docs_reply` does not. -/
theorem C2_not_in_docs_counterexample :
    specC2MatchPred ("xyz aaaaaaaa".data) ("xyz".data) = true ∧
    (_classify_not_in_docs_reply ("xyz aaaaaaaa".data) ("xyz".data)).1 = false := by
  decide

/-- C2, amended: after whitespace/case normalization of both strings, the
answer is marked for replacement iff it is exactly the canonical message,
or it contains a recognizable refusal phrase (one of the two hard-coded
refusal phrases or the canonical message's first 50 characters) AND is no
more than twice the canonical message's length; on a match the answer is
replaced by the canonical message verbatim and sources are cleared; "omit
sources" is set exactly when a refusal phrase is detected, even without
full replacement. In particular, for the canonical message
`"This isn't in our safety documents."` and the answer
`"This isn't in our safety documents. Please ask your HSE officer."`, the
classifier marks a fallback match and the stage clears the sources. -/
theorem C2_not_in_docs_classifier (answer notMsg : List Char)
    (sources : List String) :
    ((_classify_not_in_docs_reply answer notMsg).1 = true ↔
      (normWs answer = normWs notMsg ∨
        ((hasSub (normWs answer) refusalPhrase1 ||
            hasSub (normWs answer) refusalPhrase2 ||
            (!(normWs notMsg).isEmpty &&
              hasSub (normWs answer) ((normWs notMsg).take 50))) = true ∧
          (normWs answer).length ≤ (normWs notMsg).length * 2))) ∧
    ((_classify_not_in_docs_reply answer notMsg).2 =
      (hasSub (normWs answer) refusalPhrase1 ||
        hasSub (normWs answer) refusalPhrase2 ||
        (!(normWs notMsg).isEmpty &&
          hasSub (normWs answer) ((normWs notMsg).take 50)))) ∧
    ((_classify_not_in_docs_reply answer notMsg).1 = true →
      applyNotInDocsStage answer sources notMsg =
        (notMsg, [], (_classify_not_in_docs_reply answer notMsg).2)) ∧
    applyNotInDocsStage exAnsC2 sources canonMsgC2 = (canonMsgC2, [], true) := by
  refine ⟨?_, ?_, ?_, ?_⟩
  · simp only [_classify_not_in_docs_reply, Bool.or_eq_true, Bool.and_eq_true,
      decide_eq_true_eq]
    tauto
  · rfl
  · intro h
    simp [applyNotInDocsStage, h]
  · have h1 : _classify_not_in_docs_reply exAnsC2 canonMsgC2 = (true, true) := by
      decide
    simp [applyNotInDocsStage, h1]

/-- C2 witness: the amended theorem applied at the claim's own example,
discharging the fallback-match hypothesis there. -/
theorem C2_not_in_docs_classifier_witness :
    applyNotInDocsStage exAnsC2 ["Doc A"] canonMsgC2 = (canonMsgC2, [], true) :=
  (C2_not_in_docs_classifier exAnsC2 canonMsgC2 ["Doc A"]).2.2.2

/-! ## C1 — hard-limit truncation (agents.py lines 498-513)

```python
if len(answer) > max_len:
    trim_at = max_len - 1
    for sep in ('. ', '! ', '? ', '\n'):
        idx = answer.rfind(sep, 0, trim_at + 1)
        if idx != -1:
            answer = answer[: idx + len(sep)].rstrip()
            break
    else:
        last_space = answer.rfind(' ', 0, trim_at + 1)
        answer = answer[: last_space + 1].rstrip() if last_space > 0 else answer[:trim_at].rstrip()
    if answer and not answer.endswith(('.', '!', '?')):
        answer += '.'
```
-/

/-- `occursAt sep l i`: `sep` occurs contiguously in `l` starting at index `i`. -/
def occursAt (sep l : List Char) (i : Nat) : Bool := subAt sep (l.drop i)

/-- Largest `j ≤ i` at which `sep` occurs in `l`, if any. -/
def rfindLe (sep l : List Char) : Nat → Option Nat
  | 0 => if occursAt sep l 0 then some 0 else none
  | i + 1 => if occursAt sep l (i + 1) then some (i + 1) else rfindLe sep l i

/-- Python `l.rfind(sep, 0, hi)` as an `Option`: the largest start index with
the whole occurrence of `sep` inside `l[0:hi]`. -/
def pyRfind (sep l : List Char) (hi : Nat) : Option Nat :=
  if sep.length ≤ hi then rfindLe sep l (hi - sep.length) else none

/-- The sentence-boundary cut of the truncation stage: try the separators
`'. '`, `'! '`, `'? '`, `'\n'` in that order, else the last space (only at a
positive index), else hard-cut at `max_len - 1`. -/
def sentenceTrim (a : List Char) (maxLen : Nat) : List Char :=
  match pyRfind ['.', ' '] a maxLen with
  | some i => rstripList (a.take (i + 2))
  | none =>
    match pyRfind ['!', ' '] a maxLen with
    | some i => rstripList (a.take (i + 2))
    | none =>
      match pyRfind ['?', ' '] a maxLen with
      | some i => rstripList (a.take (i + 2))
      | none =>
        match pyRfind ['\n'] a maxLen with
        | some i => rstripList (a.take (i + 1))
        | none =>
          match pyRfind [' '] a maxLen with
          | some ls =>
            if 0 < ls then rstripList (a.take (ls + 1))
            else rstripList (a.take (maxLen - 1))
          | none => rstripList (a.take (maxLen - 1))

/-- Python `answer.endswith(('.', '!', '?'))`. -/
def endsSentence (l : List Char) : Bool :=
  match l.getLast? with
  | some c => c = '.' || c = '!' || c = '?'
  | none => false

/-- The trailing-period fix-up: append `'.'` to a non-empty result that does
not already end in sentence punctuation. -/
def addDot (l : List Char) : List Char :=
  if l.isEmpty then l else if endsSentence l then l else l ++ ['.']

/-- The hard-limit truncation stage of `process_safety_query`. -/
def truncateAnswer (maxLen : Nat) (a : List Char) : List Char :=
  if a.length ≤ maxLen then a else addDot (sentenceTrim a maxLen)

/-- `isSentBoundary c`: `c` is one of the spec's sentence-ending
punctuation marks or a newline. -/
def isSentBoundary (c : Char) : Bool := c = '.' || c = '!' || c = '?' || c = '\n'

/-- `boundaryAt a i`: index `i` of `a` holds a sentence boundary. -/
def boundaryAt (a : List Char) (i : Nat) : Bool :=
  match a.get? i with
  | some c => isSentBoundary c
  | none => false

/-- Modelled from the spec: the position of "the last sentence-ending
punctuation or newline at or before" the given index, used to state what the
claim's wording demands of the truncation cut. -/
def lastBoundaryLe (a : List Char) : Nat → Option Nat
  | 0 => if boundaryAt a 0 then some 0 else none
  | i + 1 => if boundaryAt a (i + 1) then some (i + 1) else lastBoundaryLe a i

/-! ### Supporting lemmas for the truncation stage -/

theorem subAt_iff (s t : List Char) : subAt s t = true ↔ s <+: t := by
  induction s generalizing t with
  | nil => simp [subAt]
  | cons a as ih =>
    cases t with
    | nil => simp [subAt]
    | cons b bs =>
      simp only [subAt, Bool.and_eq_true, decide_eq_true_eq, ih,
        List.cons_prefix_cons]

theorem rfindLe_some {sep l : List Char} {i j : Nat}
    (h : rfindLe sep l i = some j) :
    j ≤ i ∧ occursAt sep l j = true := by
  induction i with
  | zero =>
    simp only [rfindLe] at h
    split at h
    · next hc =>
      simp only [Option.some.injEq] at h
      subst h
      exact ⟨Nat.le_refl 0, hc⟩
    · cases h
  | succ i ih =>
    simp only [rfindLe] at h
    split at h
    · next hc =>
      simp only [Option.some.injEq] at h
      subst h
      exact ⟨Nat.le_refl _, hc⟩
    · obtain ⟨h1, h2⟩ := ih h
      exact ⟨Nat.le_succ_of_le h1, h2⟩

theorem pyRfind_some {sep l : List Char} {hi j : Nat}
    (h : pyRfind sep l hi = some j) :
    j + sep.length ≤ hi ∧ occursAt sep l j = true := by
  unfold pyRfind at h
  split at h
  · next hle =>
    obtain ⟨h1, h2⟩ := rfindLe_some h
    exact ⟨by omega, h2⟩
  · cases h

/-- An occurrence of a non-empty `sep` at index `j` splits the
corresponding take. -/
theorem take_of_occursAt {sep l : List Char} {j : Nat} (hsep : sep ≠ [])
    (h : occursAt sep l j = true) :
    l.take (j + sep.length) = l.take j ++ sep ∧ j + sep.length ≤ l.length := by
  rw [occursAt, subAt_iff] at h
  obtain ⟨t, ht⟩ := h
  have hlen : j + sep.length ≤ l.length := by
    by_cases hj : j ≤ l.length
    · have := congrArg List.length ht
      simp only [List.length_append, List.length_drop] at this
      omega
    · rw [List.drop_eq_nil_of_le (by omega)] at ht
      exact absurd (List.append_eq_nil.mp ht).1 hsep
  refine ⟨?_, hlen⟩
  conv_lhs => rw [← List.take_append_drop j l, ← ht]
  rw [List.take_append_eq_append_take]
  have h1 : (l.take j).length = j := by
    rw [List.length_take]
    omega
  rw [List.take_of_length_le (by omega), h1]
  have h2 : j + sep.length - j = sep.length := by omega
  rw [h2, List.take_left' rfl]

theorem rstripList_append_nonspace (z : List Char) {c : Char}
    (h : pyIsSpace c = false) : rstripList (z ++ [c]) = z ++ [c] := by
  simp [rstripList, List.dropWhile, h]

theorem rstripList_append_space (z : List Char) {c : Char}
    (h : pyIsSpace c = true) : rstripList (z ++ [c]) = rstripList z := by
  simp [rstripList, List.dropWhile, h]

theorem rstripList_length (l : List Char) :
    (rstripList l).length ≤ l.length := by
  have h := (List.dropWhile_sublist (l := l.reverse) pyIsSpace).length_le
  simpa [rstripList] using h

theorem addDot_length (l : List Char) :
    (addDot l).length ≤ l.length + 1 := by
  unfold addDot
  split
  · omega
  · split
    · omega
    · simp

theorem endsSentence_concat_dot (z : List Char) :
    endsSentence (z ++ ['.']) = true := by
  simp [endsSentence, List.getLast?_concat]

theorem endsSentence_addDot {l : List Char} (h : addDot l ≠ []) :
    endsSentence (addDot l) = true := by
  unfold addDot at h ⊢
  split at h
  · next he => exact absurd (List.isEmpty_iff.mp he) h
  · next he =>
    by_cases hs : endsSentence l = true
    · simp only [if_neg he, if_pos hs]
      exact hs
    · simp only [if_neg he, if_neg hs]
      exact endsSentence_concat_dot l

/-- A cut at a two-character separator `c, ' '` with `c` non-whitespace:
the right-stripped take ends exactly at `c`. -/
theorem trim_sep2_spec {a : List Char} {i : Nat} {c : Char}
    (hc : pyIsSpace c = false)
    (hocc : occursAt [c, ' '] a i = true) :
    rstripList (a.take (i + 2)) = a.take i ++ [c] ∧ (a.take i).length = i := by
  obtain ⟨heq, hlen⟩ := take_of_occursAt (by simp) hocc
  norm_num at heq hlen
  have h2 : a.take (i + 2) = (a.take i ++ [c]) ++ [' '] := by
    rw [heq]
    simp
  rw [h2, rstripList_append_space _ (by decide), rstripList_append_nonspace _ hc]
  refine ⟨rfl, ?_⟩
  rw [List.length_take]
  omega

/-- A cut at a single-character separator at index `i` keeps at most the
first `i` characters once the separator is right-stripped away. -/
theorem trim_sep1_space {a : List Char} {i : Nat} {c : Char}
    (hc : pyIsSpace c = true) (hocc : occursAt [c] a i = true) :
    rstripList (a.take (i + 1)) = rstripList (a.take i) := by
  obtain ⟨heq, hlen⟩ := take_of_occursAt (by simp) hocc
  norm_num at heq hlen
  rw [heq, rstripList_append_space _ hc]

/-- Every branch of the sentence-boundary cut keeps at most
`maxLen - 1` characters. -/
theorem sentenceTrim_length (a : List Char) (maxLen : Nat) (h1 : 1 ≤ maxLen) :
    (sentenceTrim a maxLen).length ≤ maxLen - 1 := by
  have htake : ∀ n : Nat, (rstripList (a.take n)).length ≤ n := fun n =>
    le_trans (rstripList_length _) (by simp)
  unfold sentenceTrim
  split
  · next i hdot =>
    obtain ⟨hle, hocc⟩ := pyRfind_some hdot
    norm_num at hle
    obtain ⟨heq, hlen⟩ := trim_sep2_spec (by decide) hocc
    rw [heq]
    simp only [List.length_append, List.length_singleton, hlen]
    omega
  · split
    · next i hbang =>
      obtain ⟨hle, hocc⟩ := pyRfind_some hbang
      norm_num at hle
      obtain ⟨heq, hlen⟩ := trim_sep2_spec (by decide) hocc
      rw [heq]
      simp only [List.length_append, List.length_singleton, hlen]
      omega
    · split
      · next i hqn =>
        obtain ⟨hle, hocc⟩ := pyRfind_some hqn
        norm_num at hle
        obtain ⟨heq, hlen⟩ := trim_sep2_spec (by decide) hocc
        rw [heq]
        simp only [List.length_append, List.length_singleton, hlen]
        omega
      · split
        · next i hnl =>
          obtain ⟨hle, hocc⟩ := pyRfind_some hnl
          norm_num at hle
          rw [trim_sep1_space (by decide) hocc]
          exact le_trans (htake i) (by omega)
        · split
          · next ls hsp =>
            obtain ⟨hle, hocc⟩ := pyRfind_some hsp
            norm_num at hle
            split
            · rw [trim_sep1_space (by decide) hocc]
              exact le_trans (htake ls) (by omega)
            · exact htake (maxLen - 1)
          · exact htake (maxLen - 1)

/-- The concrete input of the claim's truncation-boundary example:
`"A. B. C. D. E. F. G. H. I. J."` repeated past 50 characters. -/
def exC1Input : List Char :=
  "A. B. C. D. E. F. G. H. I. J. A. B. C. D. E. F. G. H. I. J.".data

/-- C1, counterexample. The claim reads the truncation cut as landing on
"the last sentence-ending punctuation or newline at or before max−1"; the
code instead tries the separator kinds in priority order
`'. '`, `'! '`, `'? '`, `'\n'` and cuts at the last occurrence of the first
kind found. On `"Hi. Go! 0123456789"` with `max_len = 9`, the last sentence
boundary at or before index 8 is the `'!'` at index 6 (so the claim demands
the prefix `"Hi. Go!"`), but the code cuts at the earlier `'. '` and returns
`"Hi."`. -/
theorem C1_truncation_counterexample :
    truncateAnswer 9 ("Hi. Go! 0123456789".data) = "Hi.".data ∧
    lastBoundaryLe ("Hi. Go! 0123456789".data) 8 = some 6 ∧
    "Hi.".data ≠ ("Hi. Go! 0123456789".data).take 7 := by
  decide

/-- C1, amended: when the answer is longer than the configured maximum
(`max_len ≥ 1`), the truncation stage cuts at the last occurrence of the
first separator kind present in the window, trying `'. '`, `'! '`, `'? '`,
`'\n'` in that order, else at the last space at a positive index, else
hard-cuts at `max_len − 1`; it appends a period whenever the non-empty
result does not already end in `'.'`, `'!'` or `'?'`. Consequently the
result is at most `max_len` characters and, when non-empty, ends in
sentence punctuation. In particular, with `max_len = 50` and the input
`"A. B. C. D. E. F. G. H. I. J."` repeated past 50 characters, the output
is the 47-character prefix ending exactly at the sentence boundary at
index 46 and ends in `'.'`. -/
theorem C1_truncation (a : List Char) (maxLen : Nat) (h1 : 1 ≤ maxLen)
    (h2 : maxLen < a.length) :
    (truncateAnswer maxLen a).length ≤ maxLen ∧
    (truncateAnswer maxLen a ≠ [] →
      endsSentence (truncateAnswer maxLen a) = true) ∧
    truncateAnswer 50 exC1Input = exC1Input.take 47 ∧
    (exC1Input.take 47).length ≤ 50 ∧
    boundaryAt exC1Input 46 = true ∧
    endsSentence (exC1Input.take 47) = true := by
  have hunfold : truncateAnswer maxLen a = addDot (sentenceTrim a maxLen) := by
    unfold truncateAnswer
    rw [if_neg (by omega)]
  refine ⟨?_, ?_, by decide, by decide, by decide, by decide⟩
  · rw [hunfold]
    have := addDot_length (sentenceTrim a maxLen)
    have := sentenceTrim_length a maxLen h1
    omega
  · rw [hunfold]
    exact fun h => endsSentence_addDot h

/-- C1 witness: the amended theorem applied to the claim's own example
input, discharging both hypotheses there. -/
theorem C1_truncation_witness :
    (truncateAnswer 50 exC1Input).length ≤ 50 ∧
    (truncateAnswer 50 exC1Input ≠ [] →
      endsSentence (truncateAnswer 50 exC1Input) = true) :=
  ⟨(C1_truncation exC1Input 50 (by decide) (by decide)).1,
    (C1_truncation exC1Input 50 (by decide) (by decide)).2.1⟩

/-! ## C8 — bold normalization (agents.py lines 459-463)

```python
while '**' in answer:
    answer = answer.replace('**', '*')
if answer.count('*') % 2 != 0:
    logger.warning(...)
```
-/

/-- One pass of Python `answer.replace('**', '*')`: replace each
non-overlapping occurrence of `**`, scanning left to right. -/
def replaceDD : List Char → List Char
  | [] => []
  | [c] => [c]
  | a :: b :: rest =>
    if a = '*' ∧ b = '*' then '*' :: replaceDD rest
    else a :: replaceDD (b :: rest)

/-- Python `'**' in answer`. -/
def hasDD : List Char → Bool
  | [] => false
  | [_] => false
  | a :: b :: rest => (a = '*' && b = '*') || hasDD (b :: rest)

/-- The `while '**' in answer` loop, with fuel (the loop strictly shrinks
the string, so `l.length` rounds of fuel always suffice). -/
def normalizeBoldFuel : Nat → List Char → List Char
  | 0, l => l
  | fuel + 1, l => if hasDD l then normalizeBoldFuel fuel (replaceDD l) else l

/-- The bold-normalization stage of `process_safety_query`. -/
def normalizeBold (l : List Char) : List Char := normalizeBoldFuel l.length l

theorem replaceDD_length_le :
    ∀ l : List Char, (replaceDD l).length ≤ l.length := by
  intro l
  induction l using replaceDD.induct with
  | case1 => simp [replaceDD]
  | case2 c => simp [replaceDD]
  | case3 a b rest hab ih =>
    simp only [replaceDD, if_pos hab, List.length_cons]
    omega
  | case4 a b rest hab ih =>
    simp only [replaceDD, if_neg hab, List.length_cons]
    have hlen : (b :: rest).length = rest.length + 1 := by simp
    omega

theorem replaceDD_length_lt :
    ∀ l : List Char, hasDD l = true → (replaceDD l).length < l.length := by
  intro l h
  induction l using replaceDD.induct with
  | case1 => simp [hasDD] at h
  | case2 c => simp [hasDD] at h
  | case3 a b rest hab ih =>
    simp only [replaceDD, if_pos hab, List.length_cons]
    have := replaceDD_length_le rest
    omega
  | case4 a b rest hab ih =>
    simp only [replaceDD, if_neg hab, List.length_cons]
    simp only [hasDD, Bool.or_eq_true, Bool.and_eq_true,
      decide_eq_true_eq] at h
    have hr : hasDD (b :: rest) = true := by
      rcases h with h | h
      · exact absurd h hab
      · exact h
    have := ih hr
    have hlen : (b :: rest).length = rest.length + 1 := by simp
    omega

theorem normalizeBoldFuel_noDD :
    ∀ (n : Nat) (l : List Char), l.length ≤ n →
      hasDD (normalizeBoldFuel n l) = false := by
  intro n
  induction n with
  | zero =>
    intro l hl
    have : l = [] := List.length_eq_zero.mp (Nat.le_zero.mp hl)
    subst this
    rfl
  | succ n ih =>
    intro l hl
    rw [normalizeBoldFuel]
    split
    · next h =>
      exact ih _ (by have := replaceDD_length_lt l h; omega)
    · next h => simpa using h

/-- C8: the bold-normalization stage terminates (it is a total function of
its fuelled loop), its output never contains `**`, and the concrete spec
examples hold: `"**Warning**"` becomes `"*Warning*"` and a run of five
consecutive `*` collapses to a single `*`. An odd remaining asterisk count
only triggers a log line in the code; the stage never fails, which the
embedding reflects by being total. -/
theorem C8_bold_normalization (l : List Char) :
    hasDD (normalizeBold l) = false ∧
    normalizeBold "**Warning**".data = "*Warning*".data ∧
    normalizeBold "*****".data = "*".data ∧
    normalizeBold "a*****b".data = "a*b".data :=
  ⟨normalizeBoldFuel_noDD l.length l (Nat.le_refl _), by decide, by decide,
    by decide⟩

/-! ## C6 — sliding-window rate limiting (security.py lines 56-87)

```python
MAX_REQUESTS_PER_HOUR = 20
RATE_LIMIT_WINDOW = 3600

def check_rate_limit(phone_number):
    now = time.time()
    window_start = now - RATE_LIMIT_WINDOW
    expired_keys = [key for key, ts in _rate_limit_store.items()
                    if not ts or ts[-1] < window_start]
    for key in expired_keys:
        del _rate_limit_store[key]
    timestamps = _rate_limit_store.get(phone_number, [])
    timestamps = [t for t in timestamps if t > window_start]
    if len(timestamps) >= MAX_REQUESTS_PER_HOUR:
        return False, ...
    timestamps.append(now)
    _rate_limit_store[phone_number] = timestamps
    return True, ''
```

The store dict is embedded as an association list with unique keys (the
only stores the code can build); `time.time()` is passed in explicitly.
-/

def MAX_REQUESTS_PER_HOUR : Nat := 20

def RATE_LIMIT_WINDOW : ℚ := 3600

/-- The per-sender timestamp store (a Python dict keyed by phone number). -/
abbrev RateStore := List (String × List ℚ)

/-- A store entry is live if it has a timestamp and its newest timestamp is
not older than the window start (negation of
`not ts or ts[-1] < window_start`). -/
def entryLive (windowStart : ℚ) (ts : List ℚ) : Bool :=
  match ts.getLast? with
  | none => false
  | some t => decide (windowStart ≤ t)

/-- Dict assignment `store[k] = v`: overwrite in place or append. -/
def setEntry (store : RateStore) (k : String) (v : List ℚ) : RateStore :=
  if store.any (fun e => e.1 = k) then
    store.map (fun e => if e.1 = k then (k, v) else e)
  else store ++ [(k, v)]

/-- `check_rate_limit(phone)` at time `now`: returns the pass/fail verdict
and the updated store. -/
def check_rate_limit (store : RateStore) (phone : String) (now : ℚ) :
    Bool × RateStore :=
  let windowStart := now - RATE_LIMIT_WINDOW
  let pruned := store.filter (fun e => entryLive windowStart e.2)
  let timestamps := (pruned.lookup phone).getD []
  let filtered := timestamps.filter (fun t => decide (windowStart < t))
  if MAX_REQUESTS_PER_HOUR ≤ filtered.length then (false, pruned)
  else (true, setEntry pruned phone (filtered ++ [now]))

/-! ### Association-list lemmas under unique keys -/

theorem lookup_cons_self (a : String) (v : List ℚ) (rest : RateStore) :
    ((a, v) :: rest).lookup a = some v := by
  simp [List.lookup_cons]

theorem lookup_cons_ne {a s : String} (v : List ℚ) (rest : RateStore)
    (h : s ≠ a) :
    ((a, v) :: rest).lookup s = rest.lookup s := by
  have hb : (s == a) = false := by simp [h]
  simp [List.lookup_cons, hb]

theorem lookup_eq_none_of_not_mem {store : RateStore} {k : String}
    (h : k ∉ store.map Prod.fst) : store.lookup k = none := by
  induction store with
  | nil => rfl
  | cons e rest ih =>
    obtain ⟨a, v⟩ := e
    simp only [List.map_cons, List.mem_cons] at h
    push_neg at h
    rw [lookup_cons_ne _ _ h.1]
    exact ih h.2

theorem lookup_filter_of_none {p : String × List ℚ → Bool} {store : RateStore}
    {k : String} (h : store.lookup k = none) :
    (store.filter p).lookup k = none := by
  induction store with
  | nil => simp
  | cons e rest ih =>
    obtain ⟨a, v⟩ := e
    by_cases hk : k = a
    · subst hk
      rw [lookup_cons_self] at h
      cases h
    · rw [lookup_cons_ne _ _ hk] at h
      rw [List.filter_cons]
      split
      · rw [lookup_cons_ne _ _ hk]
        exact ih h
      · exact ih h

theorem lookup_filter_of_some {p : String × List ℚ → Bool} {store : RateStore}
    {k : String} {v : List ℚ} (hnd : (store.map Prod.fst).Nodup)
    (h : store.lookup k = some v) :
    (store.filter p).lookup k = if p (k, v) then some v else none := by
  induction store with
  | nil => simp at h
  | cons e rest ih =>
    obtain ⟨a, w⟩ := e
    simp only [List.map_cons, List.nodup_cons] at hnd
    by_cases hk : k = a
    · subst hk
      rw [lookup_cons_self] at h
      injection h with h
      subst w
      have hrest : rest.lookup k = none := lookup_eq_none_of_not_mem hnd.1
      rw [List.filter_cons]
      by_cases hp : p (k, v) = true
      · rw [if_pos hp, if_pos hp, lookup_cons_self]
      · rw [if_neg (by simpa using hp), if_neg hp]
        exact lookup_filter_of_none hrest
    · rw [lookup_cons_ne _ _ hk] at h
      rw [List.filter_cons]
      split
      · rw [lookup_cons_ne _ _ hk]
        exact ih hnd.2 h
      · exact ih hnd.2 h

theorem lookup_append_of_none {s1 s2 : RateStore} {k : String}
    (h : s1.lookup k = none) : (s1 ++ s2).lookup k = s2.lookup k := by
  induction s1 with
  | nil => simp
  | cons e rest ih =>
    obtain ⟨a, v⟩ := e
    by_cases hk : k = a
    · subst hk
      rw [lookup_cons_self] at h
      cases h
    · rw [lookup_cons_ne _ _ hk] at h
      rw [List.cons_append, lookup_cons_ne _ _ hk]
      exact ih h

theorem lookup_setEntry_self (store : RateStore) (k : String) (v : List ℚ) :
    (setEntry store k v).lookup k = some v := by
  unfold setEntry
  split
  · next hany =>
    induction store with
    | nil => simp at hany
    | cons e rest ih =>
      obtain ⟨a, w⟩ := e
      by_cases hk : a = k
      · subst hk
        rw [List.map_cons, if_pos rfl, lookup_cons_self]
      · simp only [List.any_cons, Bool.or_eq_true, decide_eq_true_eq] at hany
        rcases hany with h | h
        · exact absurd h hk
        · rw [List.map_cons, if_neg hk,
            lookup_cons_ne _ _ (fun hh => hk hh.symm)]
          exact ih (by simpa using h)
  · rw [lookup_append_of_none, lookup_cons_self]
    next hany =>
    apply lookup_eq_none_of_not_mem
    simp only [List.any_eq_true, decide_eq_true_eq, not_exists, not_and] at hany
    simp only [List.mem_map, not_exists, not_and]
    intro e he heq
    exact hany e he heq

theorem lookup_append_single_ne (store : RateStore) {k s : String}
    (v : List ℚ) (hne : s ≠ k) :
    (store ++ [(k, v)]).lookup s = store.lookup s := by
  induction store with
  | nil => simp [lookup_cons_ne _ _ hne]
  | cons e rest ih =>
    obtain ⟨a, w⟩ := e
    by_cases hs : s = a
    · subst hs
      rw [List.cons_append, lookup_cons_self, lookup_cons_self]
    · rw [List.cons_append, lookup_cons_ne _ _ hs, lookup_cons_ne _ _ hs]
      exact ih

theorem lookup_setEntry_other (store : RateStore) {k s : String}
    (v : List ℚ) (hne : s ≠ k) :
    (setEntry store k v).lookup s = store.lookup s := by
  unfold setEntry
  split
  · next hany =>
    clear hany
    induction store with
    | nil => simp
    | cons e rest ih =>
      obtain ⟨a, w⟩ := e
      rw [List.map_cons]
      by_cases hk : a = k
      · subst hk
        rw [if_pos rfl, lookup_cons_ne _ _ hne, lookup_cons_ne _ _ hne]
        exact ih
      · rw [if_neg hk]
        by_cases hs : s = a
        · subst hs
          rw [lookup_cons_self, lookup_cons_self]
        · rw [lookup_cons_ne _ _ hs, lookup_cons_ne _ _ hs]
          exact ih
  · exact lookup_append_single_ne store v hne

theorem all_le_getLast {ts : List ℚ} {t : ℚ}
    (hs : ts.Sorted (· ≤ ·)) (hl : ts.getLast? = some t) :
    ∀ x ∈ ts, x ≤ t := by
  induction ts with
  | nil => simp
  | cons a rest ih =>
    rw [List.sorted_cons] at hs
    intro x hx
    cases rest with
    | nil =>
      simp only [List.getLast?_singleton, Option.some.injEq] at hl
      simp only [List.mem_singleton] at hx
      subst hl
      subst hx
      exact le_refl _
    | cons b r =>
      rw [List.getLast?_cons_cons] at hl
      rcases List.mem_cons.mp hx with rfl | hx2
      · exact hs.1 t (List.mem_of_getLast?_eq_some hl)
      · exact ih hs.2 hl x hx2

/-- The store after the global eviction pass of `check_rate_limit`. -/
def prunedStore (store : RateStore) (now : ℚ) : RateStore :=
  store.filter (fun e => entryLive (now - RATE_LIMIT_WINDOW) e.2)

/-- A sender's timestamps inside the trailing window at time `now`. -/
def inWindowOf (store : RateStore) (phone : String) (now : ℚ) : List ℚ :=
  ((store.lookup phone).getD []).filter
    (fun t => decide (now - RATE_LIMIT_WINDOW < t))

/-- Pruning does not change which of a sender's timestamps are inside the
window (sortedness makes a whole-entry eviction agree with the per-element
filter). -/
theorem inWindow_pruned_eq (store : RateStore) (phone : String) (now : ℚ)
    (hnodup : (store.map Prod.fst).Nodup)
    (hsorted : ((store.lookup phone).getD []).Sorted (· ≤ ·)) :
    inWindowOf (prunedStore store now) phone now =
      inWindowOf store phone now := by
  unfold inWindowOf prunedStore
  cases hlk : store.lookup phone with
  | none => rw [lookup_filter_of_none hlk]
  | some ts =>
    rw [lookup_filter_of_some hnodup hlk]
    by_cases hlive : entryLive (now - RATE_LIMIT_WINDOW) ts = true
    · rw [if_pos hlive]
    · rw [if_neg hlive]
      simp only [Option.getD_none, List.filter_nil, Option.getD_some]
      symm
      rw [List.filter_eq_nil_iff]
      intro t ht
      simp only [decide_eq_true_eq, not_lt]
      unfold entryLive at hlive
      cases hgl : ts.getLast? with
      | none =>
        rw [List.getLast?_eq_none_iff] at hgl
        subst hgl
        simp at ht
      | some last =>
        rw [hgl] at hlive
        simp only [decide_eq_true_eq] at hlive
        push_neg at hlive
        have hall := all_le_getLast (by rwa [hlk] at hsorted) hgl t ht
        linarith

theorem check_rate_limit_run (store : RateStore) (phone : String) (now : ℚ) :
    check_rate_limit store phone now =
      if MAX_REQUESTS_PER_HOUR ≤
          (inWindowOf (prunedStore store now) phone now).length then
        (false, prunedStore store now)
      else
        (true, setEntry (prunedStore store now) phone
          (inWindowOf (prunedStore store now) phone now ++ [now])) := rfl

/-- C6: with the 3600-second window and a cap of 20, the rate check fails
iff the sender already has at least 20 timestamps strictly inside the
trailing window at check time; a failed check does not change the sender's
entry; a passing check records the in-window timestamps plus the current
time; once all of a sender's recorded timestamps age out of the window the
next check passes again; and every other sender whose entry is expired is
evicted by the check. The hypotheses restrict the store to those the code
can build: unique keys and per-sender timestamps recorded in time order. -/
theorem C6_rate_limiting (store : RateStore) (phone : String) (now : ℚ)
    (hnodup : (store.map Prod.fst).Nodup)
    (hsorted : ((store.lookup phone).getD []).Sorted (· ≤ ·)) :
    ((check_rate_limit store phone now).1 = false ↔
      MAX_REQUESTS_PER_HOUR ≤ (inWindowOf store phone now).length) ∧
    ((check_rate_limit store phone now).1 = false →
      (check_rate_limit store phone now).2.lookup phone =
        store.lookup phone) ∧
    ((check_rate_limit store phone now).1 = true →
      (check_rate_limit store phone now).2.lookup phone =
        some (inWindowOf store phone now ++ [now])) ∧
    ((∀ t ∈ (store.lookup phone).getD [], t ≤ now - RATE_LIMIT_WINDOW) →
      (check_rate_limit store phone now).1 = true) ∧
    (∀ s ts, s ≠ phone → store.lookup s = some ts →
      entryLive (now - RATE_LIMIT_WINDOW) ts = false →
      (check_rate_limit store phone now).2.lookup s = none) := by
  have hbridge := inWindow_pruned_eq store phone now hnodup hsorted
  rw [check_rate_limit_run, hbridge]
  by_cases hcap : MAX_REQUESTS_PER_HOUR ≤ (inWindowOf store phone now).length
  · rw [if_pos hcap]
    refine ⟨by simpa using hcap, fun _ => ?_, by simp, fun hage => ?_, ?_⟩
    · -- failure: the sender's entry is live, so pruning kept it verbatim
      show (prunedStore store now).lookup phone = store.lookup phone
      unfold prunedStore
      cases hlk : store.lookup phone with
      | none => exact lookup_filter_of_none hlk
      | some ts =>
        rw [lookup_filter_of_some hnodup hlk]
        by_cases hlive : entryLive (now - RATE_LIMIT_WINDOW) ts = true
        · rw [if_pos hlive]
        · exfalso
          have hnil : inWindowOf store phone now = [] := by
            have := inWindow_pruned_eq store phone now hnodup hsorted
            rw [← this]
            unfold inWindowOf prunedStore
            rw [lookup_filter_of_some hnodup hlk, if_neg hlive]
            simp
          rw [hnil] at hcap
          simp [MAX_REQUESTS_PER_HOUR] at hcap
    · -- all timestamps aged out contradicts the cap being reached
      exfalso
      have hnil : inWindowOf store phone now = [] := by
        unfold inWindowOf
        rw [List.filter_eq_nil_iff]
        intro t ht
        simp only [decide_eq_true_eq, not_lt]
        exact hage t ht
      rw [hnil] at hcap
      simp [MAX_REQUESTS_PER_HOUR] at hcap
    · -- eviction of expired senders
      intro s ts hne hlk hdead
      show (prunedStore store now).lookup s = none
      unfold prunedStore
      rw [lookup_filter_of_some hnodup hlk]
      simp [hdead]
  · rw [if_neg hcap]
    refine ⟨by simpa using hcap, by simp, fun _ => ?_, fun _ => rfl, ?_⟩
    · exact lookup_setEntry_self _ _ _
    · intro s ts hne hlk hdead
      show (setEntry (prunedStore store now) phone
          (inWindowOf store phone now ++ [now])).lookup s = none
      rw [lookup_setEntry_other _ _ hne]
      unfold prunedStore
      rw [lookup_filter_of_some hnodup hlk]
      simp [hdead]

/-- C6 witness: a sender with exactly 20 in-window timestamps is refused
(the 21st request inside the window fails), and a sender whose timestamps
have all aged out passes again; the theorem is applied at a concrete store
discharging the uniqueness and sortedness hypotheses. -/
theorem C6_rate_limiting_witness :
    (check_rate_limit [("alice", List.replicate 20 (10 : ℚ))] "alice" 20).1
        = false ∧
    (check_rate_limit [("bob", [(5 : ℚ)])] "bob" 4000).1 = true := by
  have hnd1 : (([("alice", List.replicate 20 (10 : ℚ))] : RateStore).map
      Prod.fst).Nodup := by simp
  have hs1 : ((([("alice", List.replicate 20 (10 : ℚ))] : RateStore).lookup
      "alice").getD []).Sorted (· ≤ ·) := by
    rw [lookup_cons_self]
    exact List.pairwise_replicate.mpr (Or.inr (le_refl _))
  have hwin : inWindowOf [("alice", List.replicate 20 (10 : ℚ))] "alice" 20 =
      List.replicate 20 (10 : ℚ) := by
    unfold inWindowOf
    rw [lookup_cons_self]
    simp only [Option.getD_some]
    rw [List.filter_eq_self]
    intro a ha
    rw [List.eq_of_mem_replicate ha]
    norm_num [RATE_LIMIT_WINDOW]
  have hnd2 : (([("bob", [(5 : ℚ)])] : RateStore).map Prod.fst).Nodup := by
    simp
  have hs2 : ((([("bob", [(5 : ℚ)])] : RateStore).lookup "bob").getD
      []).Sorted (· ≤ ·) := by
    rw [lookup_cons_self]
    simp
  refine ⟨((C6_rate_limiting _ "alice" 20 hnd1 hs1).1).mpr ?_,
    (C6_rate_limiting _ "bob" 4000 hnd2 hs2).2.2.2.1 ?_⟩
  · rw [hwin]
    simp [MAX_REQUESTS_PER_HOUR]
  · rw [lookup_cons_self]
    intro t ht
    simp only [Option.getD_some, List.mem_singleton] at ht
    subst ht
    norm_num [RATE_LIMIT_WINDOW]

/-! ## C7 — intent classification and follow-up re-routing
(whatsapp_integration.py lines 210-230 and 454-491)

```python
def classify_message(message):
    message_lower = message.lower().strip()
    if message_lower in response_cache: return 'cached'
    for keyword in safety_keywords:
        if keyword in message_lower: return 'safety'
    for keyword in general_keywords:
        if keyword in message_lower: return 'general'
    if len(message_lower.split()) <= 3: return 'general'
    return 'safety'

# follow-up override, inside process_incoming_message:
msg_normalized = message_lower.rstrip('?').strip()
is_general_intro = msg_normalized in response_cache
if recent_log and '?' in message_body and len(message_body.strip()) <= 120 \
        and not is_general_intro:
    message_type = 'safety'
```

The built-in response cache and default keyword lists of the source are
embedded verbatim (the observed configuration: `RESPONSE_CACHE_PATH` and
`SAFETY_KEYWORDS` are `None`).
-/

def thatsAllINeeded : List Char :=
  "that".data ++ [apos] ++ "s all i needed, thanks".data

def thatsAllForNowBye : List Char :=
  "that".data ++ [apos] ++ "s all for now, bye".data

/-- The keys of `_BUILTIN_RESPONSE_CACHE`. -/
def builtinCacheKeys : List (List Char) :=
  ["hello".data, "hi".data, "hey".data, "good morning".data,
   "good afternoon".data, "good evening".data, "how are you".data,
   "what can you do".data, "what do you do".data, "who are you".data,
   "what kind of things can you help with".data, "ready to ask".data,
   "can i ask you a specific question".data, "thank you".data,
   "thanks".data, "thank you so much".data, "appreciate it".data,
   "great".data, "awesome".data, "perfect".data, "ok".data, "okay".data,
   "got it".data, thatsAllINeeded, "thanks, that was helpful".data,
   "understood".data, "bye".data, thatsAllForNowBye, "take care".data,
   "goodbye".data, "good night".data]

/-- The default safety keyword list of `_get_safety_keywords`. -/
def defaultSafetyKeywords : List (List Char) :=
  ["safety".data, "hazard".data, "procedure".data, "steps".data,
   "required".data, "emergency".data, "equipment".data, "inspection".data,
   "permit".data, "compliance".data, "regulation".data, "ppe".data,
   "gloves".data, "voltage".data, "electrical".data, "lockout".data,
   "tagout".data, "loto".data, "confined space".data, "arc flash".data,
   "injury".data, "testing".data, "rescue".data, "atmospheric".data,
   "boundary".data, "document".data, "policy".data, "control".data]

/-- `_get_general_keywords`: the cache keys plus the capability phrases. -/
def generalKeywords : List (List Char) :=
  builtinCacheKeys ++
    ["help".data, "start".data, "well done".data, "good job".data,
     "what can you help".data, "how can you help".data]

/-- Python `message.lower().strip()`. -/
def lowerStrip (m : List Char) : List Char := stripList (lowerList m)

/-- Python `len(s.split())`: the number of whitespace-separated words. -/
def wordCount (l : List Char) : Nat :=
  ((l.splitOnP pyIsSpace).filter (fun w => !w.isEmpty)).length

/-- The three intent classes of `classify_message`. -/
inductive MsgClass where
  | cached
  | general
  | safety
deriving DecidableEq

/-- `classify_message(message)` under the built-in configuration. -/
def classify_message (message : List Char) : MsgClass :=
  let ml := lowerStrip message
  if builtinCacheKeys.contains ml then .cached
  else if defaultSafetyKeywords.any (fun k => hasSub ml k) then .safety
  else if generalKeywords.any (fun k => hasSub ml k) then .general
  else if wordCount ml ≤ 3 then .general
  else .safety

/-- Python `s.rstrip('?')`. -/
def rstripQm (l : List Char) : List Char :=
  (l.reverse.dropWhile (fun c => c = '?')).reverse

/-- The follow-up override condition of `process_incoming_message`:
re-route a `general` message to the safety path iff a recent safety log
exists, the message contains `'?'`, its stripped length is at most 120,
and the message (lowercased, with trailing `'?'` stripped, re-stripped)
is not itself a cache key. -/
def followupReroute (hasRecentLog : Bool) (message : List Char) : Bool :=
  let ml := lowerStrip message
  let msgNorm := stripList (rstripQm ml)
  let isGeneralIntro := builtinCacheKeys.contains msgNorm
  hasRecentLog && message.contains '?' &&
    (stripList message).length ≤ 120 && !isGeneralIntro

/-- Which handler ultimately answers the message. -/
inductive Route where
  | cached
  | general
  | safety
deriving DecidableEq

/-- The routing decision of `process_incoming_message` for a message that
passed the security gate: cached replies stay cached, safety stays safety,
and `general` is re-routed by the follow-up override. -/
def routeMessage (hasRecentLog : Bool) (message : List Char) : Route :=
  match classify_message message with
  | .cached => .cached
  | .safety => .safety
  | .general =>
    if followupReroute hasRecentLog message then .safety else .general

/-- Python's `string.punctuation` character set. -/
def specPunctChars : List Char :=
  "!\"#$%&".data ++ [apos] ++ "()*+,-./:;<=>?@[".data ++ "\\]^_".data ++
    [Char.ofNat 96, Char.ofNat 123, '|', Char.ofNat 125, '~']

/-- Modelled from the spec: "the message (punctuation-stripped) is not
itself a canned-response key" — reading punctuation-stripped as removing
punctuation characters, not only trailing question marks. -/
def specC7NotCanned (message : List Char) : Bool :=
  !(builtinCacheKeys.contains
    (stripList ((lowerStrip message).filter
      (fun c => !specPunctChars.contains c))))

/-- C7, counterexample. For the message `"thanks?!"` (classified `general`)
with a recent safety exchange: stripped of punctuation it is the canned key
`"thanks"`, so the claim's condition fails and the claim predicts the
general path; but the code only strips trailing `'?'` characters — which
leaves `"thanks?!"` intact because it ends in `'!'` — so it does re-route
the message to the safety path. -/
theorem C7_followup_counterexample :
    classify_message "thanks?!".data = MsgClass.general ∧
    routeMessage true "thanks?!".data = Route.safety ∧
    specC7NotCanned "thanks?!".data = false := by
  decide

/-- C7, amended: a message classified `general` is re-routed to the safety
path iff all of: a prior safety exchange exists within the recency window,
the message contains `'?'`, the stripped message is at most 120 characters,
and the lowercased message with its trailing `'?'` characters stripped
(then whitespace-trimmed) is not itself a canned-response key; otherwise it
is answered on the general path. -/
theorem C7_followup_routing (hasRecentLog : Bool) (message : List Char)
    (h : classify_message message = MsgClass.general) :
    (routeMessage hasRecentLog message = Route.safety ↔
      (hasRecentLog = true ∧ message.contains '?' = true ∧
        (stripList message).length ≤ 120 ∧
        builtinCacheKeys.contains (stripList (rstripQm (lowerStrip message)))
          = false)) ∧
    (routeMessage hasRecentLog message = Route.safety ∨
      routeMessage hasRecentLog message = Route.general) := by
  unfold routeMessage
  rw [h]
  by_cases hfr : followupReroute hasRecentLog message = true
  · rw [if_pos hfr]
    unfold followupReroute at hfr
    simp only [Bool.and_eq_true, decide_eq_true_eq,
      Bool.not_eq_true'] at hfr
    refine ⟨⟨fun _ => ?_, fun _ => rfl⟩, Or.inl rfl⟩
    tauto
  · rw [if_neg hfr]
    refine ⟨⟨fun hr => absurd hr (by simp), fun hc => ?_⟩, Or.inr rfl⟩
    exfalso
    apply hfr
    unfold followupReroute
    simp only [Bool.and_eq_true, decide_eq_true_eq, Bool.not_eq_true']
    tauto

/-- C7 witness: the amended theorem applied at a concrete follow-up
message (`"and for welding?"`, classified `general` by the three-word
rule), discharging the classification hypothesis there. -/
theorem C7_followup_routing_witness :
    routeMessage true "and for welding?".data = Route.safety ↔
      (true = true ∧ ("and for welding?".data).contains '?' = true ∧
        (stripList "and for welding?".data).length ≤ 120 ∧
        builtinCacheKeys.contains
          (stripList (rstripQm (lowerStrip "and for welding?".data)))
          = false) :=
  (C7_followup_routing true "and for welding?".data (by decide)).1

/-! ## C4, C5 — retrieval, relevance gate and topic gate
(agents.py lines 14-27, 339-346, 369-425)

`rag.search` and the retry search are modelled by an abstract
`search : query -> results` function; distances are rationals (the code
only compares them and takes minima). The front end of
`process_safety_query` up to and including the topic gate is embedded as
`retrieveAndGate`, returning either the early not-in-documents outcome or
the results and deduplicated sources passed on to synthesis.
-/

/-- A retrieved chunk as formatted by `SafetyRAG.search`. -/
structure Chunk where
  text : List Char
  source : List Char
  distance : Option ℚ
deriving DecidableEq

/-- `_best_distance(chunks)`: minimum of the distances that are present. -/
def _best_distance (chunks : List Chunk) : Option ℚ :=
  chunks.foldl
    (fun best c =>
      match c.distance with
      | none => best
      | some d =>
        match best with
        | none => some d
        | some b => some (min b d))
    none

/-- The configuration read by the gate:
`TOPIC_REQUIRED_SOURCE_HINTS`, `RAG_RELEVANCE_DISTANCE_THRESHOLD`,
`NOT_IN_DOCUMENTS_MESSAGE`. -/
structure GateCfg where
  rules : List (List (List Char) × List (List Char))
  threshold : Option ℚ
  notInDocsMsg : List Char
deriving DecidableEq

/-- `_query_expects_topic_not_in_sources(query, sources)`: some rule has a
trigger keyword contained in the lowercased query and no required hint
contained in the space-joined lowercased source names. -/
def _query_expects_topic_not_in_sources
    (rules : List (List (List Char) × List (List Char)))
    (query : List Char) (sources : List (List Char)) : Bool :=
  let q := lowerList query
  let joined := List.intercalate [' '] (sources.map lowerList)
  rules.any (fun r =>
    r.1.any (fun kw => hasSub q kw) &&
      !(r.2.any (fun hint => hasSub joined hint)))

/-- `list(set(chunk['source'] for chunk in rag_results))`, embedded as a
first-occurrence deduplication (the claims do not depend on the order). -/
def dedupSources (chunks : List Chunk) : List (List Char) :=
  chunks.foldl
    (fun acc c => if acc.contains c.source then acc else acc ++ [c.source])
    []

/-- Outcome of the retrieval front end of `process_safety_query`. -/
inductive GateResult where
  | early (answer : List Char) (sources : List (List Char))
  | proceed (results : List Chunk) (sources : List (List Char))
deriving DecidableEq

/-- The code after the distance gate: compute the deduplicated sources and
apply the topic gate. -/
def afterDistanceGate (cfg : GateCfg) (query : List Char)
    (results : List Chunk) : GateResult :=
  let sources := dedupSources results
  if _query_expects_topic_not_in_sources cfg.rules query sources then
    .early cfg.notInDocsMsg []
  else .proceed results sources

/-- The retry query: `' '.join(conversation_sources) + ' ' + query`. -/
def augmentedQuery (cs : List (List Char)) (query : List Char) : List Char :=
  List.intercalate [' '] cs ++ [' '] ++ query

/-- The retrieval front end of `process_safety_query` (lines 369-425):
empty-result short circuit, relevance distance gate with the
conversation-context retry, then the topic gate. -/
def retrieveAndGate (cfg : GateCfg) (search : List Char → List Chunk)
    (query : List Char) (conversationSources : List (List Char)) :
    GateResult :=
  let ragResults := search query
  if ragResults.isEmpty then .early cfg.notInDocsMsg []
  else
    match _best_distance ragResults, cfg.threshold with
    | some b, some t =>
      if t < b then
        if !conversationSources.isEmpty then
          let r2 := search (augmentedQuery conversationSources query)
          let b2 := if r2.isEmpty then none else _best_distance r2
          match b2 with
          | some b2v =>
            if b2v ≤ t then afterDistanceGate cfg query r2
            else .early cfg.notInDocsMsg []
          | none => .early cfg.notInDocsMsg []
        else .early cfg.notInDocsMsg []
      else afterDistanceGate cfg query ragResults
    | _, _ => afterDistanceGate cfg query ragResults

/-- Modelled from the spec: the topic-gate condition as the claim words it —
some rule has a trigger keyword contained in the query case-insensitively
and NONE OF THE RETRIEVED SOURCE TITLES (individually) contains any of that
rule's required hints. -/
def specC4TopicPred (rules : List (List (List Char) × List (List Char)))
    (query : List Char) (titles : List (List Char)) : Bool :=
  rules.any (fun r =>
    r.1.any (fun kw => hasSub (lowerList query) (lowerList kw)) &&
      !(titles.any (fun title =>
        r.2.any (fun hint => hasSub (lowerList title) hint))))

/-- The topic gate fires iff some rule has a matched trigger and no matched
hint in the joined lowercased source names. -/
theorem topic_gate_iff (rules : List (List (List Char) × List (List Char)))
    (query : List Char) (sources : List (List Char)) :
    _query_expects_topic_not_in_sources rules query sources = true ↔
      ∃ r ∈ rules,
        (∃ kw ∈ r.1, hasSub (lowerList query) kw = true) ∧
        ∀ hint ∈ r.2,
          hasSub (List.intercalate [' '] (sources.map lowerList)) hint
            = false := by
  unfold _query_expects_topic_not_in_sources
  simp only [List.any_eq_true, Bool.and_eq_true, Bool.not_eq_true',
    List.any_eq_false]
  constructor
  · rintro ⟨r, hr, hkw, hhint⟩
    exact ⟨r, hr, hkw, fun hint hh => by simpa using hhint hint hh⟩
  · rintro ⟨r, hr, hkw, hhint⟩
    exact ⟨r, hr, hkw, fun hint hh => by simpa using hhint hint hh⟩

/-- C4, counterexample. The claim's per-title reading of the topic gate is
not what the code checks: the code joins all lowercased source names with
spaces and looks for each hint in that single string, so a hint can match
across the boundary of two titles. With rule
`(["foo"], ["a b"])`, query `"foo"` and retrieved titles `"x a"` and
`"b y"` (non-empty results, distance gate passed), no single title contains
the hint `"a b"` — the claim demands the canonical not-in-documents
outcome — but the joined string `"x a b y"` does contain it, so the code
proceeds with the retrieved results instead. -/
theorem C4_topic_gate_counterexample :
    specC4TopicPred [(["foo".data], ["a b".data])] "foo".data
      ["x a".data, "b y".data] = true ∧
    dedupSources [⟨"t1".data, "x a".data, none⟩,
      ⟨"t2".data, "b y".data, none⟩] = ["x a".data, "b y".data] ∧
    retrieveAndGate
        ⟨[(["foo".data], ["a b".data])], none, "not in docs".data⟩
        (fun _ => [⟨"t1".data, "x a".data, none⟩,
          ⟨"t2".data, "b y".data, none⟩])
        "foo".data [] =
      GateResult.proceed
        [⟨"t1".data, "x a".data, none⟩, ⟨"t2".data, "b y".data, none⟩]
        ["x a".data, "b y".data] ∧
    GateResult.proceed
        [⟨"t1".data, "x a".data, none⟩, ⟨"t2".data, "b y".data, none⟩]
        ["x a".data, "b y".data] ≠
      GateResult.early "not in docs".data [] := by
  decide

/-- C4, amended: for every non-empty retrieval result that passed the
distance gate (best distance absent, threshold absent, or best distance at
most the threshold): if some configured rule has a trigger keyword
contained verbatim in the lowercased query and none of that rule's
required hints is contained in the SPACE-JOINED lowercased source names,
then `process_safety_query` returns the canonical not-in-documents message
with an empty sources list, even though retrieval returned non-empty,
within-threshold results. -/
theorem C4_topic_gate (cfg : GateCfg) (search : List Char → List Chunk)
    (query : List Char) (cs : List (List Char))
    (hne : search query ≠ [])
    (hpass : ∀ b t, _best_distance (search query) = some b →
      cfg.threshold = some t → b ≤ t)
    (hgate : ∃ r ∈ cfg.rules,
      (∃ kw ∈ r.1, hasSub (lowerList query) kw = true) ∧
      ∀ hint ∈ r.2,
        hasSub (List.intercalate [' ']
          ((dedupSources (search query)).map lowerList)) hint = false) :
    retrieveAndGate cfg search query cs =
      GateResult.early cfg.notInDocsMsg [] := by
  have hgate2 : _query_expects_topic_not_in_sources cfg.rules query
      (dedupSources (search query)) = true :=
    (topic_gate_iff _ _ _).mpr hgate
  have hafter : afterDistanceGate cfg query (search query) =
      GateResult.early cfg.notInDocsMsg [] := by
    unfold afterDistanceGate
    rw [if_pos hgate2]
  unfold retrieveAndGate
  rw [if_neg (by simpa [List.isEmpty_iff] using hne)]
  cases hbest : _best_distance (search query) with
  | none =>
    cases hthr : cfg.threshold with
    | none => exact hafter
    | some t => exact hafter
  | some b =>
    cases hthr : cfg.threshold with
    | none => exact hafter
    | some t =>
      dsimp only
      rw [if_neg (not_lt.mpr (hpass b t hbest hthr))]
      exact hafter

/-- C4 witness: the amended theorem applied at a concrete configuration —
trigger `"weld"` present in the query, required hint `"xyz"` absent from
the joined source names — discharging all three hypotheses there. -/
theorem C4_topic_gate_witness :
    retrieveAndGate
        ⟨[(["weld".data], ["xyz".data])], none, "not in docs".data⟩
        (fun _ => [⟨"t".data, "doc a".data, none⟩]) "welding?".data [] =
      GateResult.early "not in docs".data [] :=
  C4_topic_gate _ _ _ _ (by decide)
    (fun b t hb _ => by cases hb)
    (by decide)

/-- C5: the relevance gate of `process_safety_query` — an empty result set
short-circuits to the canonical not-in-documents outcome with no sources;
a best distance above the threshold with no prior conversation sources
returns the canonical outcome immediately; with prior conversation sources
it re-runs the search on the query prefixed with the joined prior source
titles and accepts that retry's results (passing them to the topic gate
and onward) iff the retry returned results whose best distance is within
the threshold, returning the canonical outcome with no sources
otherwise. -/
theorem C5_relevance_gate (cfg : GateCfg) (search : List Char → List Chunk)
    (query : List Char) (cs : List (List Char)) (b t : ℚ) :
    (search query = [] →
      retrieveAndGate cfg search query cs =
        GateResult.early cfg.notInDocsMsg []) ∧
    (search query ≠ [] → _best_distance (search query) = some b →
      cfg.threshold = some t → t < b → cs = [] →
      retrieveAndGate cfg search query cs =
        GateResult.early cfg.notInDocsMsg []) ∧
    (search query ≠ [] → _best_distance (search query) = some b →
      cfg.threshold = some t → t < b → cs ≠ [] →
      ((∀ b2, search (augmentedQuery cs query) ≠ [] →
          _best_distance (search (augmentedQuery cs query)) = some b2 →
          b2 ≤ t →
          retrieveAndGate cfg search query cs =
            afterDistanceGate cfg query (search (augmentedQuery cs query))) ∧
        (¬(∃ b2, search (augmentedQuery cs query) ≠ [] ∧
            _best_distance (search (augmentedQuery cs query)) = some b2 ∧
            b2 ≤ t) →
          retrieveAndGate cfg search query cs =
            GateResult.early cfg.notInDocsMsg []))) := by
  refine ⟨?_, ?_, ?_⟩
  · intro h
    unfold retrieveAndGate
    rw [if_pos (by simpa [List.isEmpty_iff] using h)]
  · intro hne hbest hthr hlt hcs
    unfold retrieveAndGate
    rw [if_neg (by simpa [List.isEmpty_iff] using hne)]
    simp only [hbest, hthr]
    rw [if_pos hlt, hcs]
    simp
  · intro hne hbest hthr hlt hcs
    have hstep : retrieveAndGate cfg search query cs =
        (match (if (search (augmentedQuery cs query)).isEmpty then none
                else _best_distance (search (augmentedQuery cs query))) with
         | some b2v =>
           if b2v ≤ t then
             afterDistanceGate cfg query (search (augmentedQuery cs query))
           else GateResult.early cfg.notInDocsMsg []
         | none => GateResult.early cfg.notInDocsMsg []) := by
      unfold retrieveAndGate
      rw [if_neg (by simpa [List.isEmpty_iff] using hne)]
      simp only [hbest, hthr]
      rw [if_pos hlt,
        if_pos (by simpa [List.isEmpty_iff] using hcs)]
    constructor
    · intro b2 hr2ne hbest2 hle
      rw [hstep, if_neg (by simpa [List.isEmpty_iff] using hr2ne), hbest2]
      simp only [if_pos hle]
    · intro hnot
      rw [hstep]
      by_cases hr2 : (search (augmentedQuery cs query)).isEmpty = true
      · rw [if_pos hr2]
      · rw [if_neg hr2]
        cases hbest2 : _best_distance (search (augmentedQuery cs query)) with
        | none => rfl
        | some b2v =>
          dsimp only
          rw [if_neg ?_]
          intro hle
          exact hnot ⟨b2v, by simpa [List.isEmpty_iff] using hr2,
            hbest2, hle⟩

/-- C5 witness: the relevance gate applied at concrete inputs — an empty
retrieval short-circuits, and an over-threshold best distance with no
prior sources returns the canonical outcome — discharging every hypothesis
there. -/
theorem C5_relevance_gate_witness :
    retrieveAndGate ⟨[], some 0, "nid".data⟩ (fun _ => []) "q".data [] =
      GateResult.early "nid".data [] ∧
    retrieveAndGate ⟨[], some 0, "nid".data⟩
        (fun _ => [⟨"t".data, "s".data, some 1⟩]) "q".data [] =
      GateResult.early "nid".data [] := by
  constructor
  · exact (C5_relevance_gate ⟨[], some 0, "nid".data⟩ (fun _ => [])
      "q".data [] 0 0).1 rfl
  · exact (C5_relevance_gate ⟨[], some 0, "nid".data⟩
      (fun _ => [⟨"t".data, "s".data, some 1⟩]) "q".data [] 1 0).2.1
      (by simp) rfl rfl (by norm_num) rfl

/-! ## C3 — `SafetyRAG.chunk_text` (rag_system.py lines 66-97)

```python
words = text.split()
chunks = []
start = 0
while start < len(words):
    current_chunk = []; current_length = 0; i = start
    while i < len(words) and current_length < self.CHUNK_SIZE:
        current_chunk.append(words[i])
        current_length += len(words[i]) + 1
        i += 1
    chunks.append(' '.join(current_chunk))
    overlap_chars = 0; step_back = 0
    for word in reversed(current_chunk):
        overlap_chars += len(word) + 1
        step_back += 1
        if overlap_chars >= self.CHUNK_OVERLAP:
            break
    start = i - step_back
    if start <= (i - len(current_chunk)):
        start = i - len(current_chunk) + 1
return chunks
```

The outer loop is embedded with `words.length` rounds of fuel; the start
index strictly increases each round, so that fuel always suffices (the
reassembly theorem below depends on exactly this).
-/

/-- The chunker's character accounting for one word: `len(word) + 1`. -/
def wWeight (w : List Char) : Nat := w.length + 1

/-- Accumulated character length of a word list. -/
def weightSum (ws : List (List Char)) : Nat := (ws.map wWeight).sum

/-- The inner accumulation loop: take words while the accumulated length
is still below `size` (checked before each word is added). -/
def grab (size : Nat) (acc : Nat) : List (List Char) → List (List Char)
  | [] => []
  | w :: ws => if acc < size then w :: grab size (acc + wWeight w) ws else []

/-- The reversed walk of the step-back loop, carrying the accumulated
overlap characters and the step count. -/
def stepBackAux (overlap : Nat) : Nat → Nat → List (List Char) → Nat
  | _, sb, [] => sb
  | oc, sb, w :: ws =>
    if overlap ≤ oc + wWeight w then sb + 1
    else stepBackAux overlap (oc + wWeight w) (sb + 1) ws

/-- `step_back` for a finished chunk. -/
def stepBack (overlap : Nat) (chunk : List (List Char)) : Nat :=
  stepBackAux overlap 0 0 chunk.reverse

/-- The next round's start index: step back by `step_back` words from the
chunk's end, then apply the forward-progress guard. -/
def nextStart (words : List (List Char)) (size overlap start : Nat) : Nat :=
  let chunk := grab size 0 (words.drop start)
  let i := start + chunk.length
  let sb := stepBack overlap chunk
  let ns := i - sb
  if ns ≤ start then start + 1 else ns

/-- The outer chunking loop; each output element records the chunk's start
index in the word sequence together with its words. -/
def chunkRecFuel (words : List (List Char)) (size overlap : Nat) :
    Nat → Nat → List (Nat × List (List Char))
  | 0, _ => []
  | fuel + 1, start =>
    if start < words.length then
      (start, grab size 0 (words.drop start)) ::
        chunkRecFuel words size overlap fuel
          (nextStart words size overlap start)
    else []

/-- The chunking loop on a word sequence, with adequate fuel. -/
def chunkRec (words : List (List Char)) (size overlap : Nat) :
    List (Nat × List (List Char)) :=
  chunkRecFuel words size overlap words.length 0

/-- Python `text.split()`: whitespace-separated words, empties dropped. -/
def splitWords (l : List Char) : List (List Char) :=
  (l.splitOnP pyIsSpace).filter (fun w => !w.isEmpty)

/-- `SafetyRAG.chunk_text(text)`: the chunks as space-joined strings. -/
def chunk_text (size overlap : Nat) (text : List Char) : List (List Char) :=
  (chunkRec (splitWords text) size overlap).map
    (fun p => List.intercalate [' '] p.2)

/-- Reassembly of indexed chunks with overlaps removed: from each chunk
drop the words already covered by the previous chunks (those before the
running covered end `e`). -/
def reassemble : Nat → List (Nat × List (List Char)) → List (List Char)
  | _, [] => []
  | e, (s, c) :: rest => c.drop (e - s) ++ reassemble (s + c.length) rest

/-! ### Properties of the inner loops -/

theorem grab_isPre (size acc : Nat) (l : List (List Char)) :
    grab size acc l <+: l := by
  induction l generalizing acc with
  | nil => simp [grab]
  | cons w ws ih =>
    rw [grab]
    split
    · exact List.cons_prefix_cons.mpr ⟨rfl, ih (acc + wWeight w)⟩
    · exact List.nil_prefix

theorem grab_weight_lt {size acc : Nat} {l : List (List Char)} :
    ∀ j, j < (grab size acc l).length →
      acc + weightSum ((grab size acc l).take j) < size := by
  induction l generalizing acc with
  | nil => simp [grab]
  | cons w ws ih =>
    intro j hj
    rw [grab] at hj ⊢
    split at hj
    · next hacc =>
      rw [if_pos hacc]
      cases j with
      | zero => simpa [weightSum]
      | succ j' =>
        simp only [List.length_cons, Nat.succ_lt_succ_iff] at hj
        have := ih j' hj
        simp only [List.take_succ_cons, weightSum, List.map_cons,
          List.sum_cons]
        simp only [weightSum] at this
        omega
    · simp at hj

theorem grab_ne_nil {size : Nat} {l : List (List Char)} (hsz : 1 ≤ size)
    (hl : l ≠ []) : grab size 0 l ≠ [] := by
  cases l with
  | nil => exact absurd rfl hl
  | cons w ws =>
    rw [grab, if_pos (by omega)]
    simp

theorem grab_covers {size : Nat} :
    ∀ (r l : List (List Char)) (acc : Nat), r <+: l →
      (∀ j, j < r.length → acc + weightSum (r.take j) < size) →
      r.length ≤ (grab size acc l).length := by
  intro r
  induction r with
  | nil => simp
  | cons w r' ih =>
    intro l acc hpre hw
    obtain ⟨t, ht⟩ := hpre
    subst ht
    have hacc : acc < size := by
      have := hw 0 (by simp)
      simpa [weightSum] using this
    rw [List.cons_append, grab, if_pos hacc]
    simp only [List.length_cons, Nat.succ_le_succ_iff]
    apply ih (r' ++ t) (acc + wWeight w) ⟨t, rfl⟩
    intro j hj
    have := hw (j + 1) (by simpa using Nat.succ_lt_succ hj)
    simp only [List.take_succ_cons, weightSum, List.map_cons,
      List.sum_cons] at this
    simp only [weightSum]
    omega

theorem stepBackAux_bounds (overlap : Nat) :
    ∀ (l : List (List Char)) (oc sb : Nat),
      sb ≤ stepBackAux overlap oc sb l ∧
      stepBackAux overlap oc sb l ≤ sb + l.length ∧
      (l ≠ [] → sb + 1 ≤ stepBackAux overlap oc sb l) := by
  intro l
  induction l with
  | nil => simp [stepBackAux]
  | cons w ws ih =>
    intro oc sb
    rw [stepBackAux]
    have hlen : (w :: ws).length = ws.length + 1 := by simp
    split
    · exact ⟨by omega, by omega, fun _ => by omega⟩
    · obtain ⟨h1, h2, _⟩ := ih (oc + wWeight w) (sb + 1)
      exact ⟨by omega, by omega, fun _ => by omega⟩

theorem stepBack_bounds (overlap : Nat) {chunk : List (List Char)}
    (h : chunk ≠ []) :
    1 ≤ stepBack overlap chunk ∧ stepBack overlap chunk ≤ chunk.length := by
  have := stepBackAux_bounds overlap chunk.reverse 0 0
  have hrev : chunk.reverse ≠ [] := by simpa using h
  unfold stepBack
  obtain ⟨h1, h2, h3⟩ := this
  refine ⟨h3 hrev, ?_⟩
  simpa using h2

/-! ### Structure of the chunking loop -/

theorem weightSum_append (a b : List (List Char)) :
    weightSum (a ++ b) = weightSum a + weightSum b := by
  simp [weightSum]

theorem nextStart_gt (words : List (List Char)) (size overlap start : Nat) :
    start < nextStart words size overlap start := by
  unfold nextStart
  dsimp only
  split
  · omega
  · next h => omega

theorem nextStart_le (words : List (List Char)) (size overlap start : Nat)
    (hcne : grab size 0 (words.drop start) ≠ []) :
    nextStart words size overlap start ≤
      start + (grab size 0 (words.drop start)).length := by
  unfold nextStart
  dsimp only
  have hlen : 1 ≤ (grab size 0 (words.drop start)).length :=
    List.length_pos.mpr hcne
  split
  · omega
  · omega

/-- The key overlap-coverage fact: the next chunk reaches at least to the
previous chunk's end, because every proper prefix of the stepped-back
region weighs less than `size` (its words were all accepted by the
previous inner loop with room to spare). -/
theorem nextStart_region_covered {words : List (List Char)}
    {size overlap start : Nat} (hsz : 1 ≤ size)
    (hstart : start < words.length) :
    start + (grab size 0 (words.drop start)).length ≤
      nextStart words size overlap start +
        (grab size 0 (words.drop (nextStart words size overlap start))).length := by
  have hdropne : words.drop start ≠ [] := by
    simp only [ne_eq, List.drop_eq_nil_iff]
    omega
  have hcne : grab size 0 (words.drop start) ≠ [] := grab_ne_nil hsz hdropne
  set c := grab size 0 (words.drop start) with hc
  set s2 := nextStart words size overlap start with hs2
  have hgt : start < s2 := nextStart_gt words size overlap start
  have hle : s2 ≤ start + c.length := nextStart_le words size overlap start hcne
  set m := s2 - start with hm
  have hm1 : 1 ≤ m := by omega
  have hmlen : m ≤ c.length := by omega
  have hctake : c = (words.drop start).take c.length :=
    List.prefix_iff_eq_take.mp (grab_isPre size 0 (words.drop start))
  -- the stepped-back region, as a prefix of the remaining words
  have hregion : c.drop m = (words.drop s2).take (c.length - m) := by
    conv_lhs => rw [hctake]
    rw [List.drop_take, List.drop_drop]
    congr 2
    omega
  have hrlen : (c.drop m).length = c.length - m := by
    simp
  have hrpre : c.drop m <+: words.drop s2 := by
    rw [hregion]
    exact ⟨(words.drop s2).drop (c.length - m), List.take_append_drop _ _⟩
  have hrw : ∀ j, j < (c.drop m).length →
      0 + weightSum ((c.drop m).take j) < size := by
    intro j hj
    rw [hrlen] at hj
    have hsplit : c.take (m + j) = c.take m ++ (c.drop m).take j :=
      List.take_add c m j
    have hclgrab : c.length = (grab size 0 (words.drop start)).length := by
      rw [hc]
    have hlt : 0 + weightSum (c.take (m + j)) < size := by
      apply grab_weight_lt (m + j)
      omega
    rw [hsplit, weightSum_append] at hlt
    omega
  have hcov := grab_covers (c.drop m) (words.drop s2) 0 hrpre hrw
  rw [hrlen] at hcov
  omega

theorem chunkRecFuel_head_start {words : List (List Char)}
    {size overlap fuel start : Nat} {p : Nat × List (List Char)}
    (h : (chunkRecFuel words size overlap fuel start).head? = some p) :
    p.1 = start := by
  cases fuel with
  | zero => simp [chunkRecFuel] at h
  | succ fuel =>
    rw [chunkRecFuel] at h
    split at h
    · simp only [List.head?_cons, Option.some.injEq] at h
      rw [← h]
    · simp at h

theorem chunkRecFuel_chain (words : List (List Char)) (size overlap : Nat) :
    ∀ fuel start, List.Chain' (fun a b => a.1 < b.1)
      (chunkRecFuel words size overlap fuel start) := by
  intro fuel
  induction fuel with
  | zero => intro start; simp [chunkRecFuel]
  | succ fuel ih =>
    intro start
    rw [chunkRecFuel]
    split
    · apply List.chain'_cons'.mpr
      refine ⟨?_, ih _⟩
      intro b hb
      have hb1 := chunkRecFuel_head_start hb
      rw [hb1]
      exact nextStart_gt words size overlap start
    · simp

theorem chunkRecFuel_content {words : List (List Char)}
    {size overlap : Nat} (hsz : 1 ≤ size) :
    ∀ fuel start, ∀ p ∈ chunkRecFuel words size overlap fuel start,
      p.2 = (words.drop p.1).take p.2.length ∧ p.2 ≠ [] := by
  intro fuel
  induction fuel with
  | zero => intro start p hp; simp [chunkRecFuel] at hp
  | succ fuel ih =>
    intro start p hp
    rw [chunkRecFuel] at hp
    split at hp
    · next hlt =>
      rcases List.mem_cons.mp hp with rfl | hp2
      · refine ⟨List.prefix_iff_eq_take.mp (grab_isPre _ _ _), ?_⟩
        exact grab_ne_nil hsz (by simp only [ne_eq, List.drop_eq_nil_iff]; omega)
      · exact ih _ p hp2
    · simp at hp

/-- The index the chunk starting at `start` covers up to (the whole word
sequence when the loop is finished). -/
def coverEnd (words : List (List Char)) (size start : Nat) : Nat :=
  if start < words.length then
    start + (grab size 0 (words.drop start)).length
  else words.length

/-- The reassembly invariant: from any covered position `e` between the
current start and the first chunk's end, pasting the produced chunks with
their already-covered prefixes dropped yields exactly the remaining
words. -/
theorem reassemble_chunkRecFuel {words : List (List Char)}
    {size overlap : Nat} (hsz : 1 ≤ size) :
    ∀ (fuel start e : Nat), words.length - start ≤ fuel →
      start ≤ words.length → start ≤ e → e ≤ coverEnd words size start →
      reassemble e (chunkRecFuel words size overlap fuel start) =
        words.drop e := by
  intro fuel
  induction fuel with
  | zero =>
    intro start e hfuel hsw hse hce
    have h1 : start = words.length := by omega
    subst h1
    unfold coverEnd at hce
    rw [if_neg (by omega)] at hce
    rw [chunkRecFuel, reassemble, List.drop_eq_nil_of_le (by omega)]
  | succ fuel ih =>
    intro start e hfuel hsw hse hce
    rw [chunkRecFuel]
    by_cases hlt : start < words.length
    · rw [if_pos hlt]
      have hdropne : words.drop start ≠ [] := by
        simp only [ne_eq, List.drop_eq_nil_iff]
        omega
      have hcne : grab size 0 (words.drop start) ≠ [] := grab_ne_nil hsz hdropne
      set c := grab size 0 (words.drop start) with hc
      have hcpre : c <+: words.drop start := grab_isPre size 0 (words.drop start)
      have hclen : c.length ≤ words.length - start := by
        have := hcpre.length_le
        simpa [List.length_drop] using this
      have hi_le : start + c.length ≤ words.length := by omega
      have hceq : coverEnd words size start = start + c.length := by
        unfold coverEnd
        rw [if_pos hlt]
      rw [hceq] at hce
      have hctake : c = (words.drop start).take c.length :=
        List.prefix_iff_eq_take.mp hcpre
      rw [reassemble]
      set s2 := nextStart words size overlap start with hs2
      have hgt : start < s2 := nextStart_gt words size overlap start
      have hle2 : s2 ≤ start + c.length := nextStart_le words size overlap start hcne
      have hrest : reassemble (start + c.length)
          (chunkRecFuel words size overlap fuel s2) =
          words.drop (start + c.length) := by
        apply ih
        · omega
        · omega
        · omega
        · by_cases h2 : s2 < words.length
          · unfold coverEnd
            rw [if_pos h2]
            exact nextStart_region_covered hsz hlt
          · unfold coverEnd
            rw [if_neg h2]
            omega
      rw [hrest]
      have hdropc : c.drop (e - start) =
          (words.drop e).take (start + c.length - e) := by
        conv_lhs => rw [hctake]
        rw [List.drop_take, List.drop_drop]
        have heq1 : start + (e - start) = e := by omega
        have heq2 : c.length - (e - start) = start + c.length - e := by omega
        rw [heq1, heq2]
      rw [hdropc]
      have hdrop2 : words.drop (start + c.length) =
          (words.drop e).drop (start + c.length - e) := by
        rw [List.drop_drop]
        have heq1 : e + (start + c.length - e) = start + c.length := by omega
        rw [heq1]
      rw [hdrop2, List.take_append_drop]
    · rw [if_neg hlt]
      have h1 : start = words.length := by omega
      subst h1
      unfold coverEnd at hce
      rw [if_neg (by omega)] at hce
      rw [reassemble, List.drop_eq_nil_of_le (by omega)]

/-- C3: for every input text and every chunk size and overlap with
`overlap < size`, the chunker terminates (the fuelled loop with
`words.length` rounds provably finishes the job: the reassembly equation
below shows the produced chunks reach the end of the input);
`chunk_text` is the space-join of the indexed chunks; successive chunk
start indices strictly increase (forward progress even when the overlap
reaches back over the whole chunk); every chunk is a contiguous non-empty
window of the input words at its start index (so every input token appears
in some chunk, in order, and the final partial chunk is emitted even if
short); and reassembling the chunks with the already-covered overlap of
each subsequent chunk removed reproduces the original token sequence
exactly. -/
theorem C3_chunk_text (text : List Char) (size overlap : Nat)
    (h : overlap < size) :
    chunk_text size overlap text =
      (chunkRec (splitWords text) size overlap).map
        (fun p => List.intercalate [' '] p.2) ∧
    List.Chain' (fun a b => a.1 < b.1)
      (chunkRec (splitWords text) size overlap) ∧
    (∀ p ∈ chunkRec (splitWords text) size overlap,
      p.2 = ((splitWords text).drop p.1).take p.2.length ∧ p.2 ≠ []) ∧
    reassemble 0 (chunkRec (splitWords text) size overlap) =
      splitWords text := by
  have hsz : 1 ≤ size := by omega
  refine ⟨rfl, chunkRecFuel_chain _ _ _ _ _, ?_, ?_⟩
  · exact fun p hp => chunkRecFuel_content hsz _ _ p hp
  · unfold chunkRec
    have := @reassemble_chunkRecFuel (splitWords text) size overlap hsz
      (splitWords text).length 0 0
      (by omega) (by omega) (by omega) ?_
    · simpa using this
    · unfold coverEnd
      split
    -- coverEnd at 0 is nonnegative in both branches
      · omega
      · omega

/-- C3 witness: the theorem applied at a concrete text, size and overlap,
discharging the `overlap < size` hypothesis there; the reassembly equation
is evaluated on the concrete result. -/
theorem C3_chunk_text_witness :
    reassemble 0 (chunkRec (splitWords "ab cd ef gh".data) 6 2) =
      splitWords "ab cd ef gh".data :=
  (C3_chunk_text "ab cd ef gh".data 6 2 (by omega)).2.2.2

/-! ## C10 — totality of `SafetyRAG.search` (rag_system.py lines 195-237)

The whole body of `search` runs inside one `try`; the `except` clause
returns `[]`. The external effects (collection count, query embedding,
Chroma query) are modelled as `Except`-valued fields of an environment;
the embedding makes every raise explicit, so "never propagates an
exception" is the statement that `search` is a plain function into
`List Chunk` whose failure branches all produce `[]`.
-/

/-- The per-query slice of a Chroma query result:
`documents[0]`, `metadatas[0]` (just the `source` field, `none` when the
metadata is not a dict or has no source), `distances[0]`. -/
structure QueryRes where
  docs : List (List Char)
  metas : List (Option (List Char))
  dists : List (Option ℚ)

/-- The external world `search` touches, each call either a value or a
raised exception. -/
structure SearchEnv where
  count : Except (List Char) Nat
  embed : Except (List Char) (List ℚ)
  query : Except (List Char) QueryRes

/-- The result-formatting loop of `search`: pair each document text with
its metadata source (default `""`) and distance (default `None`), keeping
only non-blank texts. -/
def formatResults (r : QueryRes) : List Chunk :=
  (List.range r.docs.length).filterMap (fun i =>
    match r.docs.get? i with
    | none => none
    | some text =>
      if (stripList text).isEmpty then none
      else some
        { text := text
          source := ((r.metas.get? i).getD none).getD []
          distance := (r.dists.get? i).getD none })

/-- The `try` block of `search`: any raise aborts with the error. -/
def searchInner (env : SearchEnv) : Except (List Char) (List Chunk) :=
  match env.count with
  | .error e => .error e
  | .ok c =>
    if c = 0 then .ok []
    else
      match env.embed with
      | .error e => .error e
      | .ok _ =>
        match env.query with
        | .error e => .error e
        | .ok r => .ok (formatResults r)

/-- `SafetyRAG.search`: the `try` block with the catch-all `except` that
turns every failure into the empty list. -/
def search (env : SearchEnv) : List Chunk :=
  match searchInner env with
  | .ok results => results
  | .error _ => []

/-- C10: `search` is total at its public boundary — it always returns a
plain (possibly empty) list, and every failure mode resolves to the empty
list: an empty collection, a failing count call, a failing embedding call,
a failing index query, and in general any error of the inner body; when
everything succeeds it returns the formatted results. Downstream,
`retrieveAndGate` turns the empty list into the canonical
not-in-documents outcome (first conjunct of `C5_relevance_gate`), so no
retrieval failure reaches the sender as an error. -/
theorem C10_search_total (env : SearchEnv) :
    (env.count = .ok 0 → search env = []) ∧
    (∀ e, env.count = .error e → search env = []) ∧
    (∀ n e, env.count = .ok n → n ≠ 0 → env.embed = .error e →
      search env = []) ∧
    (∀ n v e, env.count = .ok n → n ≠ 0 → env.embed = .ok v →
      env.query = .error e → search env = []) ∧
    (∀ e, searchInner env = .error e → search env = []) ∧
    (∀ n v r, env.count = .ok n → n ≠ 0 → env.embed = .ok v →
      env.query = .ok r → search env = formatResults r) := by
  refine ⟨?_, ?_, ?_, ?_, ?_, ?_⟩
  · intro h
    simp [search, searchInner, h]
  · intro e h
    simp [search, searchInner, h]
  · intro n e hc hn he
    simp [search, searchInner, hc, hn, he]
  · intro n v e hc hn he hq
    simp [search, searchInner, hc, hn, he, hq]
  · intro e h
    simp [search, h]
  · intro n v r hc hn he hq
    simp [search, searchInner, hc, hn, he, hq]

/-- C10 witness: the theorem applied at concrete environments — an empty
collection and a failing embedding both yield `[]` — discharging each
hypothesis there. -/
theorem C10_search_total_witness :
    search ⟨.ok 0, .ok [], .ok ⟨[], [], []⟩⟩ = [] ∧
    search ⟨.ok 3, .error "boom".data, .ok ⟨[], [], []⟩⟩ = [] :=
  ⟨(C10_search_total ⟨.ok 0, .ok [], .ok ⟨[], [], []⟩⟩).1 rfl,
    (C10_search_total ⟨.ok 3, .error "boom".data, .ok ⟨[], [], []⟩⟩).2.2.1
      3 "boom".data rfl (by omega) rfl⟩

/-! ## C9 — image housekeeping cleanup (agents.py lines 487-496, 323-336)

```python
if image_url:
    answer = re.sub(r'\n?' + re.escape(SAFEGUARD_IMAGE_URL_PREFIX) + r'[^\n]*', '', answer)
    answer = re.sub(r'\n?View here:\s*https?://[^\n]+', '', answer, flags=re.IGNORECASE)
    answer = re.sub(r'\n?Note:\s*This link expires[^\n]*', '', answer)
    answer = re.sub(r'https?://[^\s\n\)\]\>\x22]+', '', answer, flags=re.IGNORECASE)
    answer = re.sub(r'(?m)^\s*https?://[^\s\n]+\s*\r?\n?', '', answer)
    answer = re.sub(r'!\[[^\]]*\]\s*\(\s*\)', '', answer)
    answer = re.sub(r'\n{3,}', '\n\n', answer)
    answer = re.sub(r'  +', ' ', answer)
    answer = answer.strip()
```

Each `re.sub` is embedded as a left-to-right scan (`scrubFuel`) driven by a
matcher that decides, at each position, whether a match starts there and how
many characters it spans. Python's scanner copies the text between matches
verbatim and resumes right after each match, which is exactly this scan; all
eight patterns match at least one character, so no zero-width cases arise.
The multiline anchor of stage 5 is tracked by a line-start flag, true at the
start of the text and right after a newline is copied or is the last removed
character — exactly the positions where Python sees a line start. -/

/-- The raw image-marker text `SAFEGUARD_IMAGE_URL:`. -/
def imgMarker : List Char := "SAFEGUARD_IMAGE_URL:".data

/-- Length of the longest prefix of `l` whose characters satisfy `p`. -/
def takeWhileLen (p : Char → Bool) (l : List Char) : Nat := (l.takeWhile p).length

/-- Case-insensitive `subAt` against an already-lowercased needle
(`re.IGNORECASE` over ASCII pattern text). -/
def subAtCI : List Char → List Char → Bool
  | [], _ => true
  | _ :: _, [] => false
  | a :: as, b :: bs => a = b.toLower && subAtCI as bs

/-- Parse `https?://` case-insensitively at the head; `some n` gives the
number of characters consumed (8 with the `s`, 7 without). -/
def matchHttpCI (l : List Char) : Option Nat :=
  if subAtCI "http".data l then
    if subAtCI "s://".data (l.drop 4) then some 8
    else if subAt "://".data (l.drop 4) then some 7
    else none
  else none

/-- Parse `https?://` case-sensitively at the head (stage 5 carries no
IGNORECASE flag). -/
def matchHttpCS (l : List Char) : Option Nat :=
  if subAt "http".data l then
    if subAt "s://".data (l.drop 4) then some 8
    else if subAt "://".data (l.drop 4) then some 7
    else none
  else none

/-- One `re.sub(pattern, repl, s)` as a left-to-right scan. The matcher `m`
receives the line-start flag and the remaining text; `some n` means a match
of `n + 1` characters starts here and is replaced by `repl`; `none` copies
one character. The flag is true exactly after a newline is copied or ends
the removed segment. -/
def scrubFuel (m : Bool → List Char → Option Nat) (repl : List Char) :
    Nat → Bool → List Char → List Char
  | 0, _, l => l
  | _ + 1, _, [] => []
  | fuel + 1, flag, c :: rest =>
    match m flag (c :: rest) with
    | some n =>
      repl ++ scrubFuel m repl fuel
        (decide (((c :: rest).take (n + 1)).getLastD ' ' = '\n'))
        ((c :: rest).drop (n + 1))
    | none => c :: scrubFuel m repl fuel (decide (c = '\n')) rest

/-- Run a scrub over the whole text, starting at a line start. -/
def scrub (m : Bool → List Char → Option Nat) (repl : List Char)
    (l : List Char) : List Char :=
  scrubFuel m repl l.length true l

/-- `[^\n]*` — length of the rest of the current line. -/
def lineLen (l : List Char) : Nat := takeWhileLen (fun c => !decide (c = '\n')) l

/-- Lift an anchored core to the pattern `\n? core`: try the core here, else
consume a leading newline and try the core after it (the two cases are
disjoint, since every core starts with a non-newline character). The core
returns the total matched length, at least 1; the lifted matcher uses the
`n + 1` convention of `scrubFuel`. -/
def optNl (core : List Char → Option Nat) (l : List Char) : Option Nat :=
  match core l with
  | some k => some (k - 1)
  | none =>
    match l with
    | '\n' :: rest =>
      match core rest with
      | some k => some k
      | none => none
    | _ => none

/-- Stage 1 core: `SAFEGUARD_IMAGE_URL:[^\n]*` anchored here. -/
def m1core (l : List Char) : Option Nat :=
  if subAt imgMarker l then
    some (imgMarker.length + lineLen (l.drop imgMarker.length))
  else none

/-- Stage 1: `\n?SAFEGUARD_IMAGE_URL:[^\n]*`. -/
def m1 (_ : Bool) (l : List Char) : Option Nat := optNl m1core l

/-- Stage 2 core: `View here:\s*https?://[^\n]+` anchored here, IGNORECASE.
The maximal whitespace run is equivalent to the greedy `\s*`, because the
following `h` is not a whitespace character. -/
def m2core (l : List Char) : Option Nat :=
  if subAtCI "view here:".data l then
    let r1 := l.drop 10
    let ws := takeWhileLen pyIsSpace r1
    match matchHttpCI (r1.drop ws) with
    | some hl =>
      let urlLen := lineLen ((r1.drop ws).drop hl)
      if urlLen = 0 then none else some (10 + ws + hl + urlLen)
    | none => none
  else none

/-- Stage 2: `\n?View here:\s*https?://[^\n]+` (IGNORECASE). -/
def m2 (_ : Bool) (l : List Char) : Option Nat := optNl m2core l

/-- Stage 3 core: `Note:\s*This link expires[^\n]*` anchored here. -/
def m3core (l : List Char) : Option Nat :=
  if subAt "Note:".data l then
    let r1 := l.drop 5
    let ws := takeWhileLen pyIsSpace r1
    if subAt "This link expires".data (r1.drop ws) then
      some (5 + ws + 17 + lineLen ((r1.drop ws).drop 17))
    else none
  else none

/-- Stage 3: `\n?Note:\s*This link expires[^\n]*`. -/
def m3 (_ : Bool) (l : List Char) : Option Nat := optNl m3core l

/-- The delimiter class of stage 4: whitespace, `)`, `]`, `>` or a double
quote (the quote is written by code point to keep the source plain). -/
def isDelim (c : Char) : Bool :=
  pyIsSpace c || c = ')' || c = ']' || c = '>' || c = Char.ofNat 34

/-- Stage 4: `https?://` followed by one or more non-delimiters
(IGNORECASE). -/
def m4 (_ : Bool) (l : List Char) : Option Nat :=
  match matchHttpCI l with
  | some hl =>
    let bodyLen := takeWhileLen (fun c => !isDelim c) (l.drop hl)
    if bodyLen = 0 then none else some (hl + bodyLen - 1)
  | none => none

/-- Stage 5: `(?m)^\s*https?://[^\s\n]+\s*\r?\n?` — only at a line start,
case-sensitive; the trailing `\r?\n?` is absorbed by the greedy `\s*`. -/
def m5 (flag : Bool) (l : List Char) : Option Nat :=
  if flag then
    let ws1 := takeWhileLen pyIsSpace l
    match matchHttpCS (l.drop ws1) with
    | some hl =>
      let r2 := (l.drop ws1).drop hl
      let bodyLen := takeWhileLen (fun c => !pyIsSpace c) r2
      if bodyLen = 0 then none
      else some (ws1 + hl + bodyLen + takeWhileLen pyIsSpace (r2.drop bodyLen) - 1)
    | none => none
  else none

/-- Stage 6 core: an empty markdown image `!\[[^\]]*\]\s*\(\s*\)`. -/
def m6core (l : List Char) : Option Nat :=
  match l with
  | a :: b :: r1 =>
    if a = '!' && b = '[' then
      let altLen := takeWhileLen (fun c => !decide (c = ']')) r1
      match r1.drop altLen with
      | rb :: r2 =>
        if rb = ']' then
          let ws1 := takeWhileLen pyIsSpace r2
          match r2.drop ws1 with
          | rp :: r3 =>
            if rp = '(' then
              let ws2 := takeWhileLen pyIsSpace r3
              match r3.drop ws2 with
              | rq :: _ =>
                if rq = ')' then some (2 + altLen + 1 + ws1 + 1 + ws2 + 1)
                else none
              | [] => none
            else none
          | [] => none
        else none
      | [] => none
    else none
  | _ => none

/-- Stage 6 with the `n + 1` convention. -/
def m6 (_ : Bool) (l : List Char) : Option Nat :=
  match m6core l with
  | some k => some (k - 1)
  | none => none

/-- Stage 7: a run of three or more newlines, replaced by two. -/
def m7 (_ : Bool) (l : List Char) : Option Nat :=
  let n := takeWhileLen (fun c => decide (c = '\n')) l
  if 3 ≤ n then some (n - 1) else none

/-- Stage 8: a run of two or more spaces, replaced by one. -/
def m8 (_ : Bool) (l : List Char) : Option Nat :=
  let n := takeWhileLen (fun c => decide (c = ' ')) l
  if 2 ≤ n then some (n - 1) else none

/-- The eight image-housekeeping rewrites followed by `strip()`
(the body of `if image_url:` in `process_safety_query`). -/
def cleanupImageText (answer : List Char) : List Char :=
  stripList
    (scrub m8 [' ']
      (scrub m7 ['\n', '\n']
        (scrub m6 []
          (scrub m5 []
            (scrub m4 []
              (scrub m3 []
                (scrub m2 []
                  (scrub m1 [] answer))))))))

/-- The `*Sources:*` footer text of agents.py line 516. -/
def sourcesTag : List Char := "\n\n*Sources:* ".data

/-- Python `", ".join(sources)`. -/
def joinComma : List (List Char) → List Char
  | [] => []
  | [t] => t
  | t :: u :: rest => t ++ [',', ' '] ++ joinComma (u :: rest)

/-- Agents.py lines 515-516: append the joined source titles unless sources
are absent or suppressed. -/
def appendSources (answer : List Char) (sources : List (List Char))
    (omitSources : Bool) : List Char :=
  if !sources.isEmpty && !omitSources then
    answer ++ sourcesTag ++ joinComma sources
  else answer

/-- The post-processing path from the image cleanup to the returned answer
text: cleanup, hard-limit truncation, sources footer. -/
def imagePostProcess (maxLen : Nat) (sources : List (List Char))
    (omitSources : Bool) (answer : List Char) : List Char :=
  appendSources (truncateAnswer maxLen (cleanupImageText answer))
    sources omitSources

/-- Index of the first occurrence of the needle (Python `str.find`,
`none` for not found). -/
def findSubIdx (needle : List Char) : List Char → Option Nat
  | [] => if needle.isEmpty then some 0 else none
  | c :: t =>
    if subAt needle (c :: t) then some 0
    else (findSubIdx needle t).map (· + 1)

/-- The URL character class of `_extract_image_url`: everything but
whitespace, `)`, `]`, `>` (note: no double quote, unlike stage 4). -/
def extractUrlChar (c : Char) : Bool :=
  !(pyIsSpace c || c = ')' || c = ']' || c = '>')

/-- Python `.rstrip('.,;')`. -/
def rstripPunct (l : List Char) : List Char :=
  (l.reverse.dropWhile (fun c => c = '.' || c = ',' || c = ';')).reverse

/-- The DALL-E host URL searched for by the second branch. -/
def oaiBase : List Char :=
  "https://oaidalleapiprodscus.blob.core.windows.net/".data

/-- `re.search` of the DALL-E URL pattern: the first position where the base
matches with at least one URL character after it. -/
def findOai : List Char → Option (List Char)
  | [] => none
  | c :: t =>
    if subAt oaiBase (c :: t) &&
        decide (1 ≤ takeWhileLen extractUrlChar ((c :: t).drop oaiBase.length)) then
      some ((c :: t).take (oaiBase.length +
        takeWhileLen extractUrlChar ((c :: t).drop oaiBase.length)))
    else findOai t

/-- `_extract_image_url` (agents.py lines 323-336): the marker branch takes
the anchored `https://`-URL right after the first marker occurrence; else
the DALL-E host is searched for; both ends are stripped of `.,;`. -/
def _extract_image_url (text : List Char) : Option (List Char) :=
  if text.isEmpty then none
  else
    let viaMarker : Option (List Char) :=
      match findSubIdx imgMarker text with
      | some idx =>
        let rest := text.drop (idx + imgMarker.length)
        if subAt "https://".data rest &&
            decide (1 ≤ takeWhileLen extractUrlChar (rest.drop 8)) then
          some (rstripPunct
            (rest.take (8 + takeWhileLen extractUrlChar (rest.drop 8))))
        else none
      | none => none
    match viaMarker with
    | some u => some u
    | none =>
      if hasSub text "oaidalleapiprodscus".data then
        match findOai text with
        | some u => some (rstripPunct u)
        | none => none
      else none

/-- `https://`, the token the claim says never survives. -/
def httpsTok : List Char := "https://".data

/-- Three consecutive newlines: a blank line read as an empty line, this is
what "more than one consecutive blank line" denotes in the text. -/
def tripleNl : List Char := ['\n', '\n', '\n']

/-- The opening of a markdown image, `![`. -/
def bangBracket : List Char := ['!', '[']

/-- Every occurrence of `https://` in `l` is immediately followed by a
non-delimiter character, so that stage 4 removes the whole token. -/
def httpsLiveB (l : List Char) : Bool :=
  (List.range l.length).all fun j =>
    !subAt httpsTok (l.drop j) ||
      (match (l.drop j).get? 8 with
       | some c => !isDelim c
       | none => false)

/-! ### Occurrence toolbox

`hasSub l W = false` says the pattern `W` occurs nowhere in `l`. The
cleanup proofs trace occurrences through appends, drops, takes and the
scrub scans, so we need a small algebra of `subAt`/`hasSub` facts. -/

theorem hasSub_cons (c : Char) (t W : List Char) :
    hasSub (c :: t) W = (subAt W (c :: t) || hasSub t W) := rfl

theorem hasSub_of_subAt {l W : List Char} (h : subAt W l = true) :
    hasSub l W = true := by
  cases l with
  | nil =>
    cases W with
    | nil => rfl
    | cons a as => simp [subAt] at h
  | cons c t => simp [hasSub_cons, h]

theorem hasSub_tail {c : Char} {t W : List Char}
    (h : hasSub (c :: t) W = false) : hasSub t W = false := by
  rw [hasSub_cons] at h
  exact (Bool.or_eq_false_iff.mp h).2

theorem hasSub_drop {W : List Char} :
    ∀ (l : List Char) (k : Nat), hasSub l W = false → hasSub (l.drop k) W = false
  | _, 0, h => h
  | [], _ + 1, h => h
  | _ :: t, k + 1, h => hasSub_drop t k (hasSub_tail h)

theorem subAt_drop_hasSub {W : List Char} :
    ∀ (l : List Char) (j : Nat), subAt W (l.drop j) = true → hasSub l W = true
  | _, 0, h => hasSub_of_subAt h
  | [], _ + 1, h => hasSub_of_subAt h
  | c :: t, j + 1, h => by
    rw [hasSub_cons, subAt_drop_hasSub t j h, Bool.or_true]

/-- The first character of an occurring pattern is a character of the text. -/
theorem hasSub_head_mem {s : List Char} {w : Char} {W2 : List Char}
    (h : hasSub s (w :: W2) = true) : w ∈ s := by
  induction s with
  | nil => simp [hasSub] at h
  | cons c t ih =>
    rw [hasSub_cons] at h
    rcases Bool.or_eq_true_iff.mp h with h1 | h2
    · rw [subAt, Bool.and_eq_true] at h1
      have := h1.1
      simp only [decide_eq_true_eq] at this
      exact this ▸ List.mem_cons_self c t
    · exact List.mem_cons_of_mem c (ih h2)

/-- No occurrence of a pattern whose head is not a character of the text. -/
theorem hasSub_of_head_notMem {s : List Char} {w : Char} {W2 : List Char}
    (h : w ∉ s) : hasSub s (w :: W2) = false := by
  cases hv : hasSub s (w :: W2) with
  | false => rfl
  | true => exact absurd (hasSub_head_mem hv) h

theorem subAt_extend {W : List Char} :
    ∀ {x : List Char} (y : List Char), subAt W x = true → subAt W (x ++ y) = true := by
  induction W with
  | nil => intro x y _; rfl
  | cons a as ih =>
    intro x y h
    cases x with
    | nil => simp [subAt] at h
    | cons b bs =>
      rw [subAt, Bool.and_eq_true] at h
      show subAt (a :: as) (b :: (bs ++ y)) = true
      rw [subAt, Bool.and_eq_true]
      exact ⟨h.1, ih y h.2⟩

theorem hasSub_nil_needle (b : List Char) : hasSub b [] = true := by
  cases b with
  | nil => rfl
  | cons c t => simp [hasSub_cons, subAt]

theorem hasSub_append_l {a b W : List Char} (h : hasSub a W = true) :
    hasSub (a ++ b) W = true := by
  induction a with
  | nil =>
    cases W with
    | nil => exact hasSub_nil_needle b
    | cons w W2 => simp [hasSub] at h
  | cons c t ih =>
    rw [hasSub_cons] at h
    rcases Bool.or_eq_true_iff.mp h with h1 | h2
    · rw [List.cons_append, hasSub_cons]
      have : subAt W ((c :: t) ++ b) = true := subAt_extend b h1
      rw [List.cons_append] at this
      simp [this]
    · rw [List.cons_append, hasSub_cons, ih h2, Bool.or_true]

theorem hasSub_append_r {a b W : List Char} (h : hasSub b W = true) :
    hasSub (a ++ b) W = true := by
  induction a with
  | nil => simpa using h
  | cons c t ih => rw [List.cons_append, hasSub_cons, ih, Bool.or_true]

theorem subAt_self (l : List Char) : subAt l l = true := by
  induction l with
  | nil => rfl
  | cons c t ih => simp [subAt, ih]

/-- An occurrence of `W` at the head of `x ++ y` lies inside `x` or spills
over its end. -/
theorem subAt_append_split {W x y : List Char} (h : subAt W (x ++ y) = true) :
    subAt W x = true ∨ ∃ B, W = x ++ B ∧ subAt B y = true := by
  induction x generalizing W with
  | nil => exact Or.inr ⟨W, rfl, by simpa using h⟩
  | cons d x' ih =>
    cases W with
    | nil => exact Or.inl rfl
    | cons w W' =>
      rw [List.cons_append, subAt, Bool.and_eq_true] at h
      rcases ih h.2 with h1 | ⟨B, hWB, hBy⟩
      · exact Or.inl (by rw [subAt, Bool.and_eq_true]; exact ⟨h.1, h1⟩)
      · refine Or.inr ⟨B, ?_, hBy⟩
        rw [List.cons_append, ← hWB]
        have := (decide_eq_true_eq).mp h.1
        rw [this]

/-- Decomposition of an occurrence in an append: inside the left part,
inside the right part, or straddling the junction — a non-empty suffix `A`
of the left part glued to a non-empty prefix `B` of the right part. -/
theorem hasSub_append_cases {a b W : List Char} (h : hasSub (a ++ b) W = true) :
    hasSub a W = true ∨ hasSub b W = true ∨
      ∃ A B, W = A ++ B ∧ A ≠ [] ∧ B ≠ [] ∧ A <:+ a ∧ subAt B b = true := by
  induction a with
  | nil => exact Or.inr (Or.inl (by simpa using h))
  | cons c a' ih =>
    rw [List.cons_append, hasSub_cons] at h
    rcases Bool.or_eq_true_iff.mp h with h1 | h2
    · have h1' : subAt W ((c :: a') ++ b) = true := by
        rw [List.cons_append]; exact h1
      rcases subAt_append_split h1' with hx | ⟨B, hWB, hBy⟩
      · exact Or.inl (hasSub_of_subAt hx)
      · by_cases hB : B = []
        · subst hB
          rw [List.append_nil] at hWB
          subst hWB
          exact Or.inl (hasSub_of_subAt (subAt_self _))
        · exact Or.inr (Or.inr ⟨c :: a', B, hWB, List.cons_ne_nil c a', hB,
            List.suffix_refl _, hBy⟩)
    · rcases ih h2 with ha' | hb | ⟨A, B, e1, e2, e3, e4, e5⟩
      · exact Or.inl (by rw [hasSub_cons, ha', Bool.or_true])
      · exact Or.inr (Or.inl hb)
      · exact Or.inr (Or.inr ⟨A, B, e1, e2, e3,
          e4.trans (List.suffix_cons c a'), e5⟩)

/-- Closing an append against a pattern: absent from both parts and with
every straddle refuted, the pattern is absent from the append. -/
theorem hasSub_append_parts {a b W : List Char}
    (ha : hasSub a W = false) (hb : hasSub b W = false)
    (hstr : ∀ A B, W = A ++ B → A ≠ [] → B ≠ [] → A <:+ a →
      subAt B b = true → False) :
    hasSub (a ++ b) W = false := by
  cases hval : hasSub (a ++ b) W with
  | false => rfl
  | true =>
    exfalso
    rcases hasSub_append_cases hval with h1 | h2 | ⟨A, B, e1, e2, e3, e4, e5⟩
    · exact Bool.false_ne_true (ha.symm.trans h1)
    · exact Bool.false_ne_true (hb.symm.trans h2)
    · exact hstr A B e1 e2 e3 e4 e5

/-- A pattern occurring at the head starts with the head character. -/
theorem subAt_cons_head {c : Char} {B2 y : List Char}
    (h : subAt (c :: B2) y = true) : y.head? = some c := by
  cases y with
  | nil => simp [subAt] at h
  | cons d t =>
    rw [subAt, Bool.and_eq_true] at h
    have := (decide_eq_true_eq).mp h.1
    rw [this]
    rfl

/-- A non-empty suffix keeps the last element. -/
theorem suffix_getLast {A x : List Char} (h : A <:+ x) (hA : A ≠ []) :
    x.getLast? = A.getLast? := by
  obtain ⟨pre, hp⟩ := h
  rw [← hp]
  exact List.getLast?_append_of_ne_nil pre hA

/-- `hasSub` is inherited by prefixes. -/
theorem hasSub_pre {x l W : List Char} (h : x <+: l)
    (hl : hasSub l W = false) : hasSub x W = false := by
  obtain ⟨t, ht⟩ := h
  cases hv : hasSub x W with
  | false => rfl
  | true =>
    exfalso
    have := hasSub_append_l (b := t) hv
    rw [ht, hl] at this
    exact Bool.false_ne_true this

/-- `hasSub` is inherited by suffixes. -/
theorem hasSub_suf {x l W : List Char} (h : x <:+ l)
    (hl : hasSub l W = false) : hasSub x W = false := by
  obtain ⟨t, ht⟩ := h
  cases hv : hasSub x W with
  | false => rfl
  | true =>
    exfalso
    have := hasSub_append_r (a := t) hv
    rw [ht, hl] at this
    exact Bool.false_ne_true this

theorem hasSub_take {l W : List Char} (n : Nat)
    (hl : hasSub l W = false) : hasSub (l.take n) W = false :=
  hasSub_pre ⟨l.drop n, List.take_append_drop n l⟩ hl

theorem hasSub_rstrip {l W : List Char} (hl : hasSub l W = false) :
    hasSub (rstripList l) W = false := by
  refine hasSub_pre ?_ hl
  have h1 : l.reverse.dropWhile pyIsSpace <:+ l.reverse :=
    List.dropWhile_suffix pyIsSpace
  obtain ⟨pre, hp⟩ := h1
  refine ⟨pre.reverse, ?_⟩
  rw [rstripList]
  rw [← List.reverse_append, hp, List.reverse_reverse]

theorem hasSub_strip {l W : List Char} (hl : hasSub l W = false) :
    hasSub (stripList l) W = false := by
  have h1 : hasSub (l.dropWhile pyIsSpace) W = false :=
    hasSub_suf (List.dropWhile_suffix pyIsSpace) hl
  have h2 : stripList l = rstripList (l.dropWhile pyIsSpace) := rfl
  rw [h2]
  exact hasSub_rstrip h1

/-! ### Generic facts about the scrub scan

Three families, by the shape of the stage: removal stages whose matches end
at a class of characters (`postClass`), the line-anchored stage 5, and the
replacement stages 7/8. In each case an occurrence of a foreign pattern in
the output is traced back to an occurrence in the input. -/

/-- Whatever `m` matches is followed by the end of the text or by a
character of the class `P0` (a line pattern by a newline, a URL body by a
delimiter). -/
def postClass (P0 : Char → Bool) (m : Bool → List Char → Option Nat) : Prop :=
  ∀ flag l n, m flag l = some n →
    l.drop (n + 1) = [] ∨ ∃ c, (l.drop (n + 1)).head? = some c ∧ P0 c = true

/-- The first character of a removal-scrub output either is the first input
character with no match there, or sits right after a removed match and so
is of the post-match class. -/
theorem scrub_first {m : Bool → List Char → Option Nat} {P0 : Char → Bool}
    (hm : postClass P0 m) :
    ∀ (fuel : Nat) (flag : Bool) (l : List Char) (h : Char) (out : List Char),
      l.length ≤ fuel → scrubFuel m [] fuel flag l = h :: out →
      (l.head? = some h ∧ m flag l = none) ∨ P0 h = true := by
  intro fuel
  induction fuel with
  | zero =>
    intro flag l h out hlen heq
    have hl : l = [] := List.length_eq_zero.mp (Nat.le_zero.mp hlen)
    subst hl
    exact absurd heq (by simp [scrubFuel])
  | succ fuel ih =>
    intro flag l h out hlen heq
    cases l with
    | nil => exact absurd heq (by simp [scrubFuel])
    | cons c rest =>
      simp only [scrubFuel] at heq
      cases hm1 : m flag (c :: rest) with
      | none =>
        simp only [hm1] at heq
        rw [List.cons.injEq] at heq
        have hch : c = h := heq.1
        subst hch
        exact Or.inl ⟨rfl, rfl⟩
      | some n =>
        simp only [hm1, List.nil_append] at heq
        have hlen2 : ((c :: rest).drop (n + 1)).length ≤ fuel := by
          rw [List.length_drop]
          simp only [List.length_cons] at hlen ⊢
          omega
        rcases ih _ _ h out hlen2 heq with ⟨hh, _⟩ | hP
        · rcases hm flag (c :: rest) n hm1 with hemp | ⟨c0, hc0, hP0⟩
          · rw [hemp] at hh
            exact absurd hh (by simp)
          · rw [hc0] at hh
            simp only [Option.some.injEq] at hh
            subst hh
            exact Or.inr hP0
        · exact Or.inr hP

/-- Tracing an occurrence through a removal scrub, from a position with no
match: the pattern already occurred at the head of the input. -/
theorem scrub_trace_at {m : Bool → List Char → Option Nat} {P0 : Char → Bool}
    (hm : postClass P0 m) :
    ∀ (fuel : Nat) (flag : Bool) (l W : List Char), l.length ≤ fuel →
      W ≠ [] → (∀ c ∈ W, P0 c = false) → m flag l = none →
      subAt W (scrubFuel m [] fuel flag l) = true → subAt W l = true := by
  intro fuel
  induction fuel with
  | zero =>
    intro flag l W hlen hW hchars _ hsub
    have hl : l = [] := List.length_eq_zero.mp (Nat.le_zero.mp hlen)
    subst hl
    cases W with
    | nil => exact absurd rfl hW
    | cons w W2 => simp [scrubFuel, subAt] at hsub
  | succ fuel ih =>
    intro flag l W hlen hW hchars hnone hsub
    cases l with
    | nil =>
      cases W with
      | nil => exact absurd rfl hW
      | cons w W2 => simp [scrubFuel, subAt] at hsub
    | cons c rest =>
      simp only [scrubFuel, hnone] at hsub
      cases W with
      | nil => exact absurd rfl hW
      | cons w W2 =>
        rw [subAt, Bool.and_eq_true] at hsub
        have hwc : w = c := by simpa using hsub.1
        subst hwc
        cases W2 with
        | nil => simp [subAt]
        | cons w2 W3 =>
          have hsub2 := hsub.2
          cases hout : scrubFuel m [] fuel (decide (w = '\n')) rest with
          | nil => rw [hout] at hsub2; simp [subAt] at hsub2
          | cons h2 t2 =>
            rw [hout, subAt, Bool.and_eq_true] at hsub2
            have hw2 : w2 = h2 := by simpa using hsub2.1
            have hlenr : rest.length ≤ fuel := by
              simp only [List.length_cons] at hlen; omega
            rcases scrub_first hm fuel _ rest h2 t2 hlenr hout with
              ⟨_, hnone2⟩ | hP
            · have hr : subAt (w2 :: W3) rest = true := by
                refine ih _ rest (w2 :: W3) hlenr (List.cons_ne_nil _ _)
                  (fun x hx => hchars x (List.mem_cons_of_mem _ hx)) hnone2 ?_
                rw [hout]
                rw [subAt, Bool.and_eq_true]
                exact hsub2
              rw [subAt, Bool.and_eq_true]
              exact ⟨by simp, hr⟩
            · exfalso
              have : P0 w2 = false :=
                hchars w2 (List.mem_cons_of_mem _ (List.mem_cons_self _ _))
              rw [hw2, hP] at this
              exact Bool.false_ne_true this.symm

/-- Tracing an occurrence through a removal scrub: the pattern occurred
somewhere in the input. -/
theorem scrub_trace {m : Bool → List Char → Option Nat} {P0 : Char → Bool}
    (hm : postClass P0 m) :
    ∀ (fuel : Nat) (flag : Bool) (l W : List Char), l.length ≤ fuel →
      W ≠ [] → (∀ c ∈ W, P0 c = false) →
      subAt W (scrubFuel m [] fuel flag l) = true →
      ∃ j, subAt W (l.drop j) = true := by
  intro fuel
  induction fuel with
  | zero =>
    intro flag l W hlen hW hchars hsub
    have hl : l = [] := List.length_eq_zero.mp (Nat.le_zero.mp hlen)
    subst hl
    cases W with
    | nil => exact absurd rfl hW
    | cons w W2 => simp [scrubFuel, subAt] at hsub
  | succ fuel ih =>
    intro flag l W hlen hW hchars hsub
    cases l with
    | nil =>
      cases W with
      | nil => exact absurd rfl hW
      | cons w W2 => simp [scrubFuel, subAt] at hsub
    | cons c rest =>
      cases hm1 : m flag (c :: rest) with
      | none =>
        exact ⟨0, scrub_trace_at hm (fuel + 1) flag _ W hlen hW hchars hm1 hsub⟩
      | some n =>
        simp only [scrubFuel, hm1, List.nil_append] at hsub
        have hlen2 : ((c :: rest).drop (n + 1)).length ≤ fuel := by
          rw [List.length_drop]
          simp only [List.length_cons] at hlen ⊢
          omega
        obtain ⟨j, hj⟩ := ih _ _ W hlen2 hW hchars hsub
        refine ⟨n + 1 + j, ?_⟩
        rw [List.drop_drop] at hj
        exact hj

/-- A removal scrub creates no occurrence of a pattern free of the
post-match class. -/
theorem scrub_keep {m : Bool → List Char → Option Nat} {P0 : Char → Bool}
    (hm : postClass P0 m) :
    ∀ (fuel : Nat) (flag : Bool) (l W : List Char), l.length ≤ fuel →
      W ≠ [] → (∀ c ∈ W, P0 c = false) →
      hasSub l W = false → hasSub (scrubFuel m [] fuel flag l) W = false := by
  intro fuel
  induction fuel with
  | zero =>
    intro flag l W hlen hW _ _
    have hl : l = [] := List.length_eq_zero.mp (Nat.le_zero.mp hlen)
    subst hl
    cases W with
    | nil => exact absurd rfl hW
    | cons w W2 => rfl
  | succ fuel ih =>
    intro flag l W hlen hW hchars h0
    cases l with
    | nil =>
      cases W with
      | nil => exact absurd rfl hW
      | cons w W2 => simp [scrubFuel]; rfl
    | cons c rest =>
      have hlenr : rest.length ≤ fuel := by
        simp only [List.length_cons] at hlen; omega
      cases hm1 : m flag (c :: rest) with
      | some n =>
        simp only [scrubFuel, hm1, List.nil_append]
        have hlen2 : ((c :: rest).drop (n + 1)).length ≤ fuel := by
          rw [List.length_drop]
          simp only [List.length_cons] at hlen ⊢
          omega
        exact ih _ _ W hlen2 hW hchars (hasSub_drop _ (n + 1) h0)
      | none =>
        have heqn : scrubFuel m [] (fuel + 1) flag (c :: rest) =
            c :: scrubFuel m [] fuel (decide (c = '\n')) rest := by
          simp only [scrubFuel, hm1]
        rw [heqn, hasSub_cons, Bool.or_eq_false_iff]
        constructor
        · cases hval : subAt W (c :: scrubFuel m [] fuel (decide (c = '\n')) rest) with
          | false => rfl
          | true =>
            exfalso
            obtain ⟨j, hj⟩ := scrub_trace hm (fuel + 1) flag (c :: rest) W hlen
              hW hchars (by rw [heqn]; exact hval)
            have := subAt_drop_hasSub _ j hj
            rw [h0] at this
            exact Bool.false_ne_true this
        · exact ih _ rest W hlenr hW hchars (hasSub_tail h0)

/-! The line-anchored stage: no match ever starts off a line start, and a
pattern without a newline cannot cross the flag back to true. -/

/-- Tracing through the anchored scrub from a non-line-start position. -/
theorem scrub5_trace_at {m : Bool → List Char → Option Nat}
    (hflag : ∀ l, m false l = none) :
    ∀ (fuel : Nat) (l W : List Char), l.length ≤ fuel → W ≠ [] →
      '\n' ∉ W → subAt W (scrubFuel m [] fuel false l) = true →
      subAt W l = true := by
  intro fuel
  induction fuel with
  | zero =>
    intro l W hlen hW _ hsub
    have hl : l = [] := List.length_eq_zero.mp (Nat.le_zero.mp hlen)
    subst hl
    cases W with
    | nil => exact absurd rfl hW
    | cons w W2 => simp [scrubFuel, subAt] at hsub
  | succ fuel ih =>
    intro l W hlen hW hnl hsub
    cases l with
    | nil =>
      cases W with
      | nil => exact absurd rfl hW
      | cons w W2 => simp [scrubFuel, subAt] at hsub
    | cons c rest =>
      simp only [scrubFuel, hflag (c :: rest)] at hsub
      cases W with
      | nil => exact absurd rfl hW
      | cons w W2 =>
        rw [subAt, Bool.and_eq_true] at hsub
        have hwc : w = c := by simpa using hsub.1
        subst hwc
        cases W2 with
        | nil => simp [subAt]
        | cons w2 W3 =>
          have hcne : (decide (w = '\n')) = false := by
            simp only [decide_eq_false_iff_not]
            intro hc
            exact hnl (hc ▸ List.mem_cons_self _ _)
          rw [hcne] at hsub
          have hlenr : rest.length ≤ fuel := by
            simp only [List.length_cons] at hlen; omega
          have hr : subAt (w2 :: W3) rest = true :=
            ih rest (w2 :: W3) hlenr (List.cons_ne_nil _ _)
              (fun h => hnl (List.mem_cons_of_mem _ h)) hsub.2
          rw [subAt, Bool.and_eq_true]
          exact ⟨by simp, hr⟩

/-- Tracing an occurrence through the anchored scrub. -/
theorem scrub5_trace {m : Bool → List Char → Option Nat}
    (hflag : ∀ l, m false l = none) :
    ∀ (fuel : Nat) (flag : Bool) (l W : List Char), l.length ≤ fuel →
      W ≠ [] → '\n' ∉ W →
      subAt W (scrubFuel m [] fuel flag l) = true →
      ∃ j, subAt W (l.drop j) = true := by
  intro fuel
  induction fuel with
  | zero =>
    intro flag l W hlen hW _ hsub
    have hl : l = [] := List.length_eq_zero.mp (Nat.le_zero.mp hlen)
    subst hl
    cases W with
    | nil => exact absurd rfl hW
    | cons w W2 => simp [scrubFuel, subAt] at hsub
  | succ fuel ih =>
    intro flag l W hlen hW hnl hsub
    cases l with
    | nil =>
      cases W with
      | nil => exact absurd rfl hW
      | cons w W2 => simp [scrubFuel, subAt] at hsub
    | cons c rest =>
      cases flag with
      | false =>
        exact ⟨0, scrub5_trace_at hflag (fuel + 1) _ W hlen hW hnl hsub⟩
      | true =>
        cases hm1 : m true (c :: rest) with
        | some n =>
          simp only [scrubFuel, hm1, List.nil_append] at hsub
          have hlen2 : ((c :: rest).drop (n + 1)).length ≤ fuel := by
            rw [List.length_drop]
            simp only [List.length_cons] at hlen ⊢
            omega
          obtain ⟨j, hj⟩ := ih _ _ W hlen2 hW hnl hsub
          refine ⟨n + 1 + j, ?_⟩
          rw [List.drop_drop] at hj
          exact hj
        | none =>
          simp only [scrubFuel, hm1] at hsub
          cases W with
          | nil => exact absurd rfl hW
          | cons w W2 =>
            rw [subAt, Bool.and_eq_true] at hsub
            have hwc : w = c := by simpa using hsub.1
            subst hwc
            cases W2 with
            | nil => exact ⟨0, by simp [subAt]⟩
            | cons w2 W3 =>
              have hcne : (decide (w = '\n')) = false := by
                simp only [decide_eq_false_iff_not]
                intro hc
                exact hnl (hc ▸ List.mem_cons_self _ _)
              rw [hcne] at hsub
              have hlenr : rest.length ≤ fuel := by
                simp only [List.length_cons] at hlen; omega
              have hr : subAt (w2 :: W3) rest = true :=
                scrub5_trace_at hflag fuel rest (w2 :: W3) hlenr
                  (List.cons_ne_nil _ _)
                  (fun h => hnl (List.mem_cons_of_mem _ h)) hsub.2
              refine ⟨0, ?_⟩
              rw [List.drop_zero, subAt, Bool.and_eq_true]
              exact ⟨by simp, hr⟩

/-- The anchored scrub creates no occurrence of a newline-free pattern. -/
theorem scrub5_keep {m : Bool → List Char → Option Nat}
    (hflag : ∀ l, m false l = none) :
    ∀ (fuel : Nat) (flag : Bool) (l W : List Char), l.length ≤ fuel →
      W ≠ [] → '\n' ∉ W →
      hasSub l W = false → hasSub (scrubFuel m [] fuel flag l) W = false := by
  intro fuel
  induction fuel with
  | zero =>
    intro flag l W hlen hW _ _
    have hl : l = [] := List.length_eq_zero.mp (Nat.le_zero.mp hlen)
    subst hl
    cases W with
    | nil => exact absurd rfl hW
    | cons w W2 => rfl
  | succ fuel ih =>
    intro flag l W hlen hW hnl h0
    cases l with
    | nil =>
      cases W with
      | nil => exact absurd rfl hW
      | cons w W2 => simp [scrubFuel]; rfl
    | cons c rest =>
      have hlenr : rest.length ≤ fuel := by
        simp only [List.length_cons] at hlen; omega
      cases hm1 : m flag (c :: rest) with
      | some n =>
        simp only [scrubFuel, hm1, List.nil_append]
        have hlen2 : ((c :: rest).drop (n + 1)).length ≤ fuel := by
          rw [List.length_drop]
          simp only [List.length_cons] at hlen ⊢
          omega
        exact ih _ _ W hlen2 hW hnl (hasSub_drop _ (n + 1) h0)
      | none =>
        have heqn : scrubFuel m [] (fuel + 1) flag (c :: rest) =
            c :: scrubFuel m [] fuel (decide (c = '\n')) rest := by
          simp only [scrubFuel, hm1]
        rw [heqn, hasSub_cons, Bool.or_eq_false_iff]
        constructor
        · cases hval : subAt W (c :: scrubFuel m [] fuel (decide (c = '\n')) rest) with
          | false => rfl
          | true =>
            exfalso
            obtain ⟨j, hj⟩ := scrub5_trace hflag (fuel + 1) flag (c :: rest) W
              hlen hW hnl (by rw [heqn]; exact hval)
            have := subAt_drop_hasSub _ j hj
            rw [h0] at this
            exact Bool.false_ne_true this
        · exact ih _ rest W hlenr hW hnl (hasSub_tail h0)

/-! The replacement stages: a pattern sharing no character with the
replacement text cannot enter through it. -/

/-- Tracing through a replacement scrub: a match spot emits the replacement
text, whose head cannot start the foreign pattern. -/
theorem scrubR_trace_at {m : Bool → List Char → Option Nat} {repl : List Char}
    (hrepl : repl ≠ []) :
    ∀ (fuel : Nat) (flag : Bool) (l W : List Char), l.length ≤ fuel →
      W ≠ [] → (∀ c ∈ W, c ∉ repl) →
      subAt W (scrubFuel m repl fuel flag l) = true → subAt W l = true := by
  intro fuel
  induction fuel with
  | zero =>
    intro flag l W hlen hW _ hsub
    have hl : l = [] := List.length_eq_zero.mp (Nat.le_zero.mp hlen)
    subst hl
    cases W with
    | nil => exact absurd rfl hW
    | cons w W2 => simp [scrubFuel, subAt] at hsub
  | succ fuel ih =>
    intro flag l W hlen hW hchars hsub
    cases l with
    | nil =>
      cases W with
      | nil => exact absurd rfl hW
      | cons w W2 => simp [scrubFuel, subAt] at hsub
    | cons c rest =>
      cases hm1 : m flag (c :: rest) with
      | some n =>
        exfalso
        simp only [scrubFuel, hm1] at hsub
        cases W with
        | nil => exact hW rfl
        | cons w W2 =>
          cases repl with
          | nil => exact hrepl rfl
          | cons r0 rt =>
            rw [List.cons_append, subAt, Bool.and_eq_true] at hsub
            have hwr : w = r0 := by simpa using hsub.1
            exact hchars w (List.mem_cons_self _ _)
              (hwr ▸ List.mem_cons_self _ _)
      | none =>
        simp only [scrubFuel, hm1] at hsub
        cases W with
        | nil => exact absurd rfl hW
        | cons w W2 =>
          rw [subAt, Bool.and_eq_true] at hsub
          have hwc : w = c := by simpa using hsub.1
          subst hwc
          cases W2 with
          | nil => simp [subAt]
          | cons w2 W3 =>
            have hlenr : rest.length ≤ fuel := by
              simp only [List.length_cons] at hlen; omega
            have hr : subAt (w2 :: W3) rest = true :=
              ih _ rest (w2 :: W3) hlenr (List.cons_ne_nil _ _)
                (fun x hx => hchars x (List.mem_cons_of_mem _ hx)) hsub.2
            rw [subAt, Bool.and_eq_true]
            exact ⟨by simp, hr⟩

/-- A replacement scrub creates no occurrence of a pattern sharing no
character with the replacement text. -/
theorem scrubR_keep {m : Bool → List Char → Option Nat} {repl : List Char}
    (hrepl : repl ≠ []) :
    ∀ (fuel : Nat) (flag : Bool) (l W : List Char), l.length ≤ fuel →
      W ≠ [] → (∀ c ∈ W, c ∉ repl) →
      hasSub l W = false → hasSub (scrubFuel m repl fuel flag l) W = false := by
  intro fuel
  induction fuel with
  | zero =>
    intro flag l W hlen hW _ _
    have hl : l = [] := List.length_eq_zero.mp (Nat.le_zero.mp hlen)
    subst hl
    cases W with
    | nil => exact absurd rfl hW
    | cons w W2 => rfl
  | succ fuel ih =>
    intro flag l W hlen hW hchars h0
    cases l with
    | nil =>
      cases W with
      | nil => exact absurd rfl hW
      | cons w W2 => simp [scrubFuel]; rfl
    | cons c rest =>
      have hlenr : rest.length ≤ fuel := by
        simp only [List.length_cons] at hlen; omega
      cases hm1 : m flag (c :: rest) with
      | some n =>
        simp only [scrubFuel, hm1]
        have hlen2 : ((c :: rest).drop (n + 1)).length ≤ fuel := by
          rw [List.length_drop]
          simp only [List.length_cons] at hlen ⊢
          omega
        refine hasSub_append_parts ?_ (ih _ _ W hlen2 hW hchars
          (hasSub_drop _ (n + 1) h0)) ?_
        · cases W with
          | nil => exact absurd rfl hW
          | cons w W2 =>
            exact hasSub_of_head_notMem (hchars w (List.mem_cons_self _ _))
        · intro A B hWAB hA hB hAsuf _
          cases A with
          | nil => exact hA rfl
          | cons a0 A2 =>
            have ha0r : a0 ∈ repl := hAsuf.subset (List.mem_cons_self _ _)
            have ha0W : a0 ∈ W := by
              rw [hWAB]
              exact List.mem_append_left B (List.mem_cons_self _ _)
            exact hchars a0 ha0W ha0r
      | none =>
        have heqn : scrubFuel m repl (fuel + 1) flag (c :: rest) =
            c :: scrubFuel m repl fuel (decide (c = '\n')) rest := by
          simp only [scrubFuel, hm1]
        rw [heqn, hasSub_cons, Bool.or_eq_false_iff]
        constructor
        · cases hval : subAt W (c :: scrubFuel m repl fuel (decide (c = '\n')) rest) with
          | false => rfl
          | true =>
            exfalso
            have := scrubR_trace_at hrepl (fuel + 1) flag (c :: rest) W hlen
              hW hchars (by rw [heqn]; exact hval)
            have h2 := hasSub_of_subAt this
            rw [h0] at h2
            exact Bool.false_ne_true h2
        · exact ih _ rest W hlenr hW hchars (hasSub_tail h0)

/-! ### Facts about the individual matchers -/

theorem dropWhile_head_not {p : Char → Bool} :
    ∀ l : List Char, l.dropWhile p = [] ∨
      ∃ c t, l.dropWhile p = c :: t ∧ p c = false := by
  intro l
  induction l with
  | nil => exact Or.inl rfl
  | cons c t ih =>
    cases hp : p c with
    | true =>
      rw [List.dropWhile_cons, if_pos hp]
      exact ih
    | false =>
      rw [List.dropWhile_cons, if_neg (by simp [hp])]
      exact Or.inr ⟨c, t, rfl, hp⟩

theorem drop_takeWhileLen (p : Char → Bool) (l : List Char) :
    l.drop (takeWhileLen p l) = l.dropWhile p := by
  have h := List.drop_left (l.takeWhile p) (l.dropWhile p)
  rw [List.takeWhile_append_dropWhile] at h
  exact h

/-- The character right after a maximal `takeWhile` run fails the test. -/
theorem takeWhileLen_post (p : Char → Bool) (l : List Char) :
    l.drop (takeWhileLen p l) = [] ∨
      ∃ c, (l.drop (takeWhileLen p l)).head? = some c ∧ p c = false := by
  rw [drop_takeWhileLen]
  rcases dropWhile_head_not (p := p) l with h | ⟨c, t, heq, hc⟩
  · exact Or.inl h
  · exact Or.inr ⟨c, by rw [heq]; rfl, hc⟩

theorem takeWhileLen_pos {p : Char → Bool} {c : Char} (t : List Char)
    (h : p c = true) : 1 ≤ takeWhileLen p (c :: t) := by
  unfold takeWhileLen
  rw [List.takeWhile_cons, if_pos h]
  simp

theorem takeWhileLen_cons_pos {p : Char → Bool} {c : Char} (t : List Char)
    (h : p c = true) : takeWhileLen p (c :: t) = takeWhileLen p t + 1 := by
  unfold takeWhileLen
  rw [List.takeWhile_cons, if_pos h]
  rfl

theorem takeWhileLen_cons_neg {p : Char → Bool} {c : Char} (t : List Char)
    (h : p c = false) : takeWhileLen p (c :: t) = 0 := by
  unfold takeWhileLen
  rw [List.takeWhile_cons, if_neg (by simp [h])]
  rfl

/-- Post-class transfer through the `\n?` lifting: if every core match of
length `k ≥ 1` ends at the class `P0`, so does the lifted matcher. -/
theorem optNl_post {core : List Char → Option Nat} {P0 : Char → Bool}
    (hcore : ∀ l k, core l = some k → 1 ≤ k ∧ (l.drop k = [] ∨
      ∃ c, (l.drop k).head? = some c ∧ P0 c = true)) :
    postClass P0 (fun _ l => optNl core l) := by
  intro flag l n h
  simp only [optNl] at h
  split at h
  · rename_i k hk
    obtain ⟨hk1, hrest⟩ := hcore l k hk
    simp only [Option.some.injEq] at h
    have hn : n + 1 = k := by omega
    rw [hn]
    exact hrest
  · split at h
    · rename_i rest hnone
      split at h
      · rename_i k hk
        obtain ⟨hk1, hrest⟩ := hcore rest k hk
        simp only [Option.some.injEq] at h
        subst h
        simpa using hrest
      · exact absurd h (by simp)
    · exact absurd h (by simp)

/-- Composing two drops. -/
theorem drop_seq2 (l : List Char) (a b : Nat) :
    l.drop (a + b) = (l.drop a).drop b := by
  rw [List.drop_drop]

/-- Composing four drops. -/
theorem drop_seq4 (l : List Char) (a b c d : Nat) :
    l.drop (a + b + c + d) = (((l.drop a).drop b).drop c).drop d := by
  rw [List.drop_drop, List.drop_drop, List.drop_drop]
  congr 1
  omega

/-- Stage 1 core matches end at the line end. -/
theorem m1core_post : ∀ (l : List Char) (k : Nat), m1core l = some k →
    1 ≤ k ∧ (l.drop k = [] ∨
      ∃ c, (l.drop k).head? = some c ∧ decide (c = '\n') = true) := by
  intro l k h
  simp only [m1core] at h
  split at h
  · simp only [Option.some.injEq] at h
    subst h
    constructor
    · have h20 : imgMarker.length = 20 := rfl
      omega
    · have h20 : imgMarker.length = 20 := rfl
      rw [h20, drop_seq2]
      unfold lineLen
      rcases takeWhileLen_post (fun c => !decide (c = '\n')) (l.drop 20)
        with h1 | ⟨c, hc, hcp⟩
      · exact Or.inl h1
      · exact Or.inr ⟨c, hc, by simpa using hcp⟩
  · exact absurd h (by simp)

/-- Stage 2 core matches end at the line end. -/
theorem m2core_post : ∀ (l : List Char) (k : Nat), m2core l = some k →
    1 ≤ k ∧ (l.drop k = [] ∨
      ∃ c, (l.drop k).head? = some c ∧ decide (c = '\n') = true) := by
  intro l k h
  simp only [m2core] at h
  split at h
  · split at h
    · rename_i hl hhl
      split at h
      · exact absurd h (by simp)
      · simp only [Option.some.injEq] at h
        subst h
        refine ⟨by omega, ?_⟩
        rw [drop_seq4]
        unfold lineLen
        rcases takeWhileLen_post (fun c => !decide (c = '\n'))
          (((l.drop 10).drop (takeWhileLen pyIsSpace (l.drop 10))).drop hl)
          with h1 | ⟨c, hc, hcp⟩
        · exact Or.inl h1
        · exact Or.inr ⟨c, hc, by simpa using hcp⟩
    · exact absurd h (by simp)
  · exact absurd h (by simp)

/-- Stage 3 core matches end at the line end. -/
theorem m3core_post : ∀ (l : List Char) (k : Nat), m3core l = some k →
    1 ≤ k ∧ (l.drop k = [] ∨
      ∃ c, (l.drop k).head? = some c ∧ decide (c = '\n') = true) := by
  intro l k h
  simp only [m3core] at h
  split at h
  · split at h
    · simp only [Option.some.injEq] at h
      subst h
      refine ⟨by omega, ?_⟩
      rw [drop_seq4]
      unfold lineLen
      rcases takeWhileLen_post (fun c => !decide (c = '\n'))
        (((l.drop 5).drop (takeWhileLen pyIsSpace (l.drop 5))).drop 17)
        with h1 | ⟨c, hc, hcp⟩
      · exact Or.inl h1
      · exact Or.inr ⟨c, hc, by simpa using hcp⟩
    · exact absurd h (by simp)
  · exact absurd h (by simp)

theorem m1_post : postClass (fun c => decide (c = '\n')) m1 :=
  optNl_post m1core_post

theorem m2_post : postClass (fun c => decide (c = '\n')) m2 :=
  optNl_post m2core_post

theorem m3_post : postClass (fun c => decide (c = '\n')) m3 :=
  optNl_post m3core_post

/-- Stage 4 matches end at a delimiter or the end of the text. -/
theorem m4_post : postClass isDelim m4 := by
  intro flag l n h
  simp only [m4] at h
  split at h
  · rename_i hl hhl
    split at h
    · exact absurd h (by simp)
    · rename_i hbody
      simp only [Option.some.injEq] at h
      have hb1 : 1 ≤ takeWhileLen (fun c => !isDelim c) (l.drop hl) := by omega
      have hn : n + 1 = hl + takeWhileLen (fun c => !isDelim c) (l.drop hl) := by
        omega
      rw [hn, drop_seq2]
      rcases takeWhileLen_post (fun c => !isDelim c) (l.drop hl)
        with h1 | ⟨c, hc, hcp⟩
      · exact Or.inl h1
      · exact Or.inr ⟨c, hc, by simpa using hcp⟩
  · exact absurd h (by simp)

/-- The anchored stage never matches off a line start. -/
theorem m5_false (l : List Char) : m5 false l = none := rfl

/-- Stage 1 fires wherever the marker occurs. -/
theorem m1_fires {l : List Char} (h : subAt imgMarker l = true) (flag : Bool) :
    ∃ n, m1 flag l = some n := by
  refine ⟨imgMarker.length + lineLen (l.drop imgMarker.length) - 1, ?_⟩
  simp [m1, optNl, m1core, h]

theorem matchHttpCI_https (rest : List Char) :
    matchHttpCI (httpsTok ++ rest) = some 8 := rfl

/-- Stage 4 fires wherever `https://` is followed by a non-delimiter. -/
theorem m4_fires {l : List Char} {c0 : Char}
    (h : subAt httpsTok l = true) (h8 : l.get? 8 = some c0)
    (hc0 : isDelim c0 = false) (flag : Bool) : ∃ n, m4 flag l = some n := by
  obtain ⟨rest, hrest⟩ := (subAt_iff _ _).mp h
  subst hrest
  cases rest with
  | nil =>
    rw [show (httpsTok ++ ([] : List Char)).get? 8 = none from rfl] at h8
    exact absurd h8 (by simp)
  | cons r rt =>
    have hr : r = c0 := by
      rw [show (httpsTok ++ r :: rt).get? 8 = some r from rfl] at h8
      simpa using h8
    refine ⟨8 + takeWhileLen (fun c => !isDelim c) (r :: rt) - 1, ?_⟩
    have hcomp : matchHttpCI (httpsTok ++ r :: rt) = some 8 :=
      matchHttpCI_https (r :: rt)
    have hdrop : (httpsTok ++ r :: rt).drop 8 = r :: rt := by
      have h8' : httpsTok.length = 8 := rfl
      rw [← h8', List.drop_left]
    simp only [m4, hcomp, hdrop]
    rw [if_neg ?hne]
    case hne =>
      have := takeWhileLen_pos (p := fun c => !isDelim c) (c := r) rt
        (by simp [hr, hc0])
      omega

/-- Stage 6 cannot fire on text without `![`. -/
theorem m6_none_of_no_bang {l : List Char}
    (h : hasSub l bangBracket = false) (flag : Bool) : m6 flag l = none := by
  cases h6 : m6core l with
  | none => simp [m6, h6]
  | some k =>
    exfalso
    simp only [m6core] at h6
    split at h6
    · rename_i a b r1
      split at h6
      · rename_i hab
        rw [Bool.and_eq_true, decide_eq_true_eq, decide_eq_true_eq] at hab
        have hsub : subAt bangBracket (a :: b :: r1) = true := by
          simp [bangBracket, subAt, hab.1, hab.2]
        have := hasSub_of_subAt hsub
        rw [h] at this
        exact Bool.false_ne_true this
      · exact absurd h6 (by simp)
    · exact absurd h6 (by simp)

/-- On text without `![`, the stage-6 scrub is the identity. -/
theorem scrub6_id : ∀ (fuel : Nat) (flag : Bool) (l : List Char),
    hasSub l bangBracket = false → scrubFuel m6 [] fuel flag l = l := by
  intro fuel
  induction fuel with
  | zero => intro flag l _; rfl
  | succ fuel ih =>
    intro flag l h
    cases l with
    | nil => rfl
    | cons c rest =>
      have hm : m6 flag (c :: rest) = none := m6_none_of_no_bang h flag
      simp only [scrubFuel, hm]
      rw [ih _ rest (hasSub_tail h)]

theorem scrubFuel_nil (m : Bool → List Char → Option Nat) (repl : List Char) :
    ∀ (fuel : Nat) (flag : Bool), scrubFuel m repl fuel flag [] = [] := by
  intro fuel flag
  cases fuel with
  | zero => rfl
  | succ fuel => rfl

/-- What a stage-7 match says: the head run has at least three newlines, the
match removes exactly the run, and the text then ends or goes on with a
non-newline. -/
theorem m7_post {flag : Bool} {l : List Char} {n : Nat}
    (h : m7 flag l = some n) :
    3 ≤ takeWhileLen (fun c => decide (c = '\n')) l ∧
    n + 1 = takeWhileLen (fun c => decide (c = '\n')) l ∧
    (l.drop (n + 1) = [] ∨
      ∃ c, (l.drop (n + 1)).head? = some c ∧ decide (c = '\n') = false) := by
  simp only [m7] at h
  split at h
  · rename_i h3
    simp only [Option.some.injEq] at h
    refine ⟨h3, by omega, ?_⟩
    have hn : n + 1 = takeWhileLen (fun c => decide (c = '\n')) l := by omega
    rw [hn]
    exact takeWhileLen_post (fun c => decide (c = '\n')) l
  · exact absurd h (by simp)

theorem m7_fires {flag : Bool} {l : List Char}
    (h : 3 ≤ takeWhileLen (fun c => decide (c = '\n')) l) :
    m7 flag l = some (takeWhileLen (fun c => decide (c = '\n')) l - 1) := by
  simp only [m7]
  rw [if_pos h]

theorem nl_run_of_tripleNl {l : List Char} (h : subAt tripleNl l = true) :
    3 ≤ takeWhileLen (fun c => decide (c = '\n')) l := by
  obtain ⟨rest, hrest⟩ := (subAt_iff _ _).mp h
  rw [← hrest]
  show 3 ≤ takeWhileLen (fun c => decide (c = '\n')) ('\n' :: '\n' :: '\n' :: rest)
  rw [takeWhileLen_cons_pos _ (by simp), takeWhileLen_cons_pos _ (by simp),
    takeWhileLen_cons_pos _ (by simp)]
  omega

/-- A short all-newline pattern occurs at the head of any text whose newline
run is at least as long. -/
theorem subAt_of_nl_run {l W : List Char}
    (hc : ∀ c ∈ W, c = '\n')
    (hlen : W.length ≤ takeWhileLen (fun c => decide (c = '\n')) l) :
    subAt W l = true := by
  rw [subAt_iff]
  have hWrep : W = List.replicate W.length '\n' := List.eq_replicate_of_mem hc
  have htw : l.takeWhile (fun c => decide (c = '\n')) =
      List.replicate (takeWhileLen (fun c => decide (c = '\n')) l) '\n' := by
    apply List.eq_replicate_of_mem
    intro b hb
    have := List.mem_takeWhile_imp hb
    simpa using this
  refine List.IsPrefix.trans ?_
    ⟨l.dropWhile (fun c => decide (c = '\n')),
      List.takeWhile_append_dropWhile _ _⟩
  rw [hWrep, htw]
  refine ⟨List.replicate
    (takeWhileLen (fun c => decide (c = '\n')) l - W.length) '\n', ?_⟩
  rw [← List.replicate_add]
  congr 1
  omega

/-- The stage-7 scrub keeps a non-newline head character in place. -/
theorem scrub7_head {c : Char} (hne : c ≠ '\n') :
    ∀ (fuel : Nat) (flag : Bool) (rest : List Char),
      (scrubFuel m7 ['\n', '\n'] fuel flag (c :: rest)).head? = some c := by
  intro fuel flag rest
  cases fuel with
  | zero => rfl
  | succ fuel =>
    have h0 : takeWhileLen (fun c => decide (c = '\n')) (c :: rest) = 0 :=
      takeWhileLen_cons_neg rest (by simp [hne])
    have hm : m7 flag (c :: rest) = none := by
      simp only [m7, h0]
      rw [if_neg (by omega)]
    simp only [scrubFuel, hm]
    rfl

/-- Occurrences of short all-newline patterns trace back through stage 7. -/
theorem scrub7_trace :
    ∀ (fuel : Nat) (flag : Bool) (l W : List Char), l.length ≤ fuel →
      W ≠ [] → (∀ c ∈ W, c = '\n') → W.length ≤ 3 →
      subAt W (scrubFuel m7 ['\n', '\n'] fuel flag l) = true →
      subAt W l = true := by
  intro fuel
  induction fuel with
  | zero =>
    intro flag l W hlen hW _ _ hsub
    have hl : l = [] := List.length_eq_zero.mp (Nat.le_zero.mp hlen)
    subst hl
    cases W with
    | nil => exact absurd rfl hW
    | cons w W2 => simp [scrubFuel, subAt] at hsub
  | succ fuel ih =>
    intro flag l W hlen hW hch hw3 hsub
    cases l with
    | nil =>
      cases W with
      | nil => exact absurd rfl hW
      | cons w W2 => simp [scrubFuel, subAt] at hsub
    | cons c rest =>
      cases hm1 : m7 flag (c :: rest) with
      | some n =>
        obtain ⟨h3, _, _⟩ := m7_post hm1
        exact subAt_of_nl_run hch (by omega)
      | none =>
        simp only [scrubFuel, hm1] at hsub
        cases W with
        | nil => exact absurd rfl hW
        | cons w W2 =>
          rw [subAt, Bool.and_eq_true] at hsub
          have hwc : w = c := by simpa using hsub.1
          subst hwc
          cases W2 with
          | nil => simp [subAt]
          | cons w2 W3 =>
            have hlenr : rest.length ≤ fuel := by
              simp only [List.length_cons] at hlen; omega
            have hr := ih _ rest (w2 :: W3) hlenr (List.cons_ne_nil _ _)
              (fun x hx => hch x (List.mem_cons_of_mem _ hx))
              (by simp only [List.length_cons] at hw3 ⊢; omega) hsub.2
            rw [subAt, Bool.and_eq_true]
            exact ⟨by simp, hr⟩

/-- After stage 7 there is no run of three newlines. -/
theorem scrub7_kills :
    ∀ (fuel : Nat) (flag : Bool) (l : List Char), l.length ≤ fuel →
      hasSub (scrubFuel m7 ['\n', '\n'] fuel flag l) tripleNl = false := by
  intro fuel
  induction fuel with
  | zero =>
    intro flag l hlen
    have hl : l = [] := List.length_eq_zero.mp (Nat.le_zero.mp hlen)
    subst hl
    rfl
  | succ fuel ih =>
    intro flag l hlen
    cases l with
    | nil =>
      simp only [scrubFuel]
      rfl
    | cons c rest =>
      have hlenr : rest.length ≤ fuel := by
        simp only [List.length_cons] at hlen; omega
      cases hm1 : m7 flag (c :: rest) with
      | some n =>
        simp only [scrubFuel, hm1]
        obtain ⟨h3, hrun, hpost⟩ := m7_post hm1
        have hlen2 : ((c :: rest).drop (n + 1)).length ≤ fuel := by
          rw [List.length_drop]
          simp only [List.length_cons] at hlen ⊢
          omega
        refine hasSub_append_parts (by decide) (ih _ _ hlen2) ?_
        intro A B hWAB hA hB hAsuf hBsub
        cases B with
        | nil => exact hB rfl
        | cons b0 B2 =>
          have hb0W : b0 ∈ tripleNl := by
            have := List.mem_append_right A (List.mem_cons_self b0 B2)
            rw [← hWAB] at this
            exact this
          have hb0 : b0 = '\n' := by
            have hall : ∀ x ∈ tripleNl, x = '\n' := by decide
            exact hall b0 hb0W
          have hXhead := subAt_cons_head hBsub
          rcases hpost with hemp | ⟨c1, hc1, hc1n⟩
          · rw [hemp, scrubFuel_nil] at hXhead
            exact absurd hXhead (by simp)
          · cases hdrop : (c :: rest).drop (n + 1) with
            | nil =>
              rw [hdrop] at hc1
              exact absurd hc1 (by simp)
            | cons d dr =>
              rw [hdrop] at hc1
              have hd : d = c1 := by simpa using hc1
              have hdne : d ≠ '\n' := by
                rw [hd]
                simpa using hc1n
              rw [hdrop, scrub7_head hdne] at hXhead
              simp only [Option.some.injEq] at hXhead
              exact hdne (hXhead.trans hb0)
      | none =>
        have heqn : scrubFuel m7 ['\n', '\n'] (fuel + 1) flag (c :: rest) =
            c :: scrubFuel m7 ['\n', '\n'] fuel (decide (c = '\n')) rest := by
          simp only [scrubFuel, hm1]
        rw [heqn, hasSub_cons, Bool.or_eq_false_iff]
        constructor
        · cases hval : subAt tripleNl
              (c :: scrubFuel m7 ['\n', '\n'] fuel (decide (c = '\n')) rest) with
          | false => rfl
          | true =>
            exfalso
            have htr := scrub7_trace (fuel + 1) flag (c :: rest) tripleNl hlen
              (by decide) (by decide) (by decide) (by rw [heqn]; exact hval)
            have hrun := nl_run_of_tripleNl htr
            exact absurd (hm1.symm.trans (m7_fires hrun)) (by simp)
        · exact ih _ rest hlenr

/-- After stage 1 the raw marker occurs nowhere. -/
theorem scrub1_kills :
    ∀ (fuel : Nat) (flag : Bool) (l : List Char), l.length ≤ fuel →
      hasSub (scrubFuel m1 [] fuel flag l) imgMarker = false := by
  intro fuel
  induction fuel with
  | zero =>
    intro flag l hlen
    have hl : l = [] := List.length_eq_zero.mp (Nat.le_zero.mp hlen)
    subst hl
    rfl
  | succ fuel ih =>
    intro flag l hlen
    cases l with
    | nil =>
      simp only [scrubFuel]
      rfl
    | cons c rest =>
      have hlenr : rest.length ≤ fuel := by
        simp only [List.length_cons] at hlen; omega
      cases hm1 : m1 flag (c :: rest) with
      | some n =>
        simp only [scrubFuel, hm1, List.nil_append]
        have hlen2 : ((c :: rest).drop (n + 1)).length ≤ fuel := by
          rw [List.length_drop]
          simp only [List.length_cons] at hlen ⊢
          omega
        exact ih _ _ hlen2
      | none =>
        have heqn : scrubFuel m1 [] (fuel + 1) flag (c :: rest) =
            c :: scrubFuel m1 [] fuel (decide (c = '\n')) rest := by
          simp only [scrubFuel, hm1]
        rw [heqn, hasSub_cons, Bool.or_eq_false_iff]
        constructor
        · cases hval : subAt imgMarker
              (c :: scrubFuel m1 [] fuel (decide (c = '\n')) rest) with
          | false => rfl
          | true =>
            exfalso
            have htr := scrub_trace_at m1_post (fuel + 1) flag (c :: rest)
              imgMarker hlen (by decide) (by decide) hm1
              (by rw [heqn]; exact hval)
            obtain ⟨n0, hn0⟩ := m1_fires htr flag
            exact absurd (hm1.symm.trans hn0) (by simp)
        · exact ih _ rest hlenr

/-- `httpsLiveB` in propositional form. -/
def httpsLiveP (l : List Char) : Prop :=
  ∀ j, subAt httpsTok (l.drop j) = true →
    ∃ c, (l.drop j).get? 8 = some c ∧ isDelim c = false

theorem httpsLiveB_to_P {l : List Char} (h : httpsLiveB l = true) :
    httpsLiveP l := by
  intro j hj
  by_cases hjl : j < l.length
  · have hall := (List.all_eq_true.mp h) j (List.mem_range.mpr hjl)
    simp only [hj, Bool.not_true, Bool.false_or] at hall
    cases hg : (l.drop j).get? 8 with
    | some c =>
      rw [hg] at hall
      exact ⟨c, rfl, by simpa using hall⟩
    | none =>
      rw [hg] at hall
      exact absurd hall (by simp)
  · exfalso
    have hnil : l.drop j = [] := List.drop_eq_nil_of_le (Nat.le_of_not_lt hjl)
    rw [hnil] at hj
    exact absurd hj (by decide)

theorem httpsLiveP_drop {l : List Char} (h : httpsLiveP l) (k : Nat) :
    httpsLiveP (l.drop k) := by
  intro j hj
  rw [List.drop_drop] at hj
  obtain ⟨c, hc, hcd⟩ := h (k + j) hj
  refine ⟨c, ?_, hcd⟩
  rw [List.drop_drop]
  exact hc

/-- After stage 4, on live input, `https://` occurs nowhere. -/
theorem scrub4_kills :
    ∀ (fuel : Nat) (flag : Bool) (l : List Char), l.length ≤ fuel →
      httpsLiveP l → hasSub (scrubFuel m4 [] fuel flag l) httpsTok = false := by
  intro fuel
  induction fuel with
  | zero =>
    intro flag l hlen _
    have hl : l = [] := List.length_eq_zero.mp (Nat.le_zero.mp hlen)
    subst hl
    rfl
  | succ fuel ih =>
    intro flag l hlen hlive
    cases l with
    | nil =>
      simp only [scrubFuel]
      rfl
    | cons c rest =>
      have hlenr : rest.length ≤ fuel := by
        simp only [List.length_cons] at hlen; omega
      cases hm1 : m4 flag (c :: rest) with
      | some n =>
        simp only [scrubFuel, hm1, List.nil_append]
        have hlen2 : ((c :: rest).drop (n + 1)).length ≤ fuel := by
          rw [List.length_drop]
          simp only [List.length_cons] at hlen ⊢
          omega
        exact ih _ _ hlen2 (httpsLiveP_drop hlive (n + 1))
      | none =>
        have heqn : scrubFuel m4 [] (fuel + 1) flag (c :: rest) =
            c :: scrubFuel m4 [] fuel (decide (c = '\n')) rest := by
          simp only [scrubFuel, hm1]
        rw [heqn, hasSub_cons, Bool.or_eq_false_iff]
        constructor
        · cases hval : subAt httpsTok
              (c :: scrubFuel m4 [] fuel (decide (c = '\n')) rest) with
          | false => rfl
          | true =>
            exfalso
            have htr := scrub_trace_at m4_post (fuel + 1) flag (c :: rest)
              httpsTok hlen (by decide) (by decide) hm1
              (by rw [heqn]; exact hval)
            obtain ⟨c0, hc0, hc0d⟩ := hlive 0 (by simpa using htr)
            obtain ⟨n0, hn0⟩ := m4_fires htr (by simpa using hc0) hc0d flag
            exact absurd (hm1.symm.trans hn0) (by simp)
        · exact ih _ rest hlenr (httpsLiveP_drop hlive 1)

/-! ### Carrying the invariants through truncation and the sources footer -/

theorem hasSub_sentenceTrim {a W : List Char} (maxLen : Nat)
    (h : hasSub a W = false) : hasSub (sentenceTrim a maxLen) W = false := by
  unfold sentenceTrim
  repeat' split
  all_goals exact hasSub_rstrip (hasSub_take _ h)

theorem hasSub_addDot {l W : List Char} (hW : W ≠ []) (hdot : '.' ∉ W)
    (h : hasSub l W = false) : hasSub (addDot l) W = false := by
  unfold addDot
  split
  · exact h
  · split
    · exact h
    · refine hasSub_append_parts h ?hb ?hstr
      case hb =>
        cases W with
        | nil => exact absurd rfl hW
        | cons w W2 =>
          refine hasSub_of_head_notMem ?_
          intro hw
          have hw' : w = '.' := by simpa using hw
          exact hdot (hw' ▸ List.mem_cons_self _ _)
      case hstr =>
        intro A B hWAB hA hB _ hBsub
        cases B with
        | nil => exact hB rfl
        | cons b0 B2 =>
          have hb0 : b0 = '.' := by
            have := subAt_cons_head hBsub
            simpa using this.symm
          have hmem : ('.' : Char) ∈ b0 :: B2 := by
            rw [hb0]
            exact List.mem_cons_self _ _
          exact hdot (by rw [hWAB]; exact List.mem_append_right A hmem)

theorem hasSub_truncate {a W : List Char} (hW : W ≠ []) (hdot : '.' ∉ W)
    (maxLen : Nat) (h : hasSub a W = false) :
    hasSub (truncateAnswer maxLen a) W = false := by
  unfold truncateAnswer
  split
  · exact h
  · exact hasSub_addDot hW hdot (hasSub_sentenceTrim maxLen h)

/-- A non-empty `rstrip` result ends in a non-whitespace character. -/
theorem rstrip_last {l : List Char} {c : Char}
    (h : (rstripList l).getLast? = some c) : pyIsSpace c = false := by
  unfold rstripList at h
  rw [List.getLast?_reverse] at h
  rcases dropWhile_head_not (p := pyIsSpace) l.reverse with h1 | ⟨d, t, heq, hd⟩
  · rw [h1] at h
    exact absurd h (by simp)
  · rw [heq] at h
    simp only [List.head?_cons, Option.some.injEq] at h
    rw [← h]
    exact hd

/-- A non-empty `strip` result ends in a non-whitespace character. -/
theorem strip_last {l : List Char} {c : Char}
    (h : (stripList l).getLast? = some c) : pyIsSpace c = false :=
  rstrip_last (l := l.dropWhile pyIsSpace) h

theorem addDot_last {l : List Char} {c : Char}
    (h : (addDot l).getLast? = some c) :
    l.getLast? = some c ∨ c = '.' := by
  unfold addDot at h
  split at h
  · exact Or.inl h
  · split at h
    · exact Or.inl h
    · right
      rw [List.getLast?_concat] at h
      simpa using h.symm

theorem sentenceTrim_last {a : List Char} (maxLen : Nat) {c : Char}
    (h : (sentenceTrim a maxLen).getLast? = some c) : pyIsSpace c = false := by
  unfold sentenceTrim at h
  repeat' split at h
  all_goals exact rstrip_last h

/-- The truncation stage never ends the text with a newline when its input
does not end in whitespace. -/
theorem truncate_last {a : List Char} (maxLen : Nat)
    (ha : ∀ c, a.getLast? = some c → pyIsSpace c = false) :
    ∀ c, (truncateAnswer maxLen a).getLast? = some c → c ≠ '\n' := by
  intro c hc
  unfold truncateAnswer at hc
  split at hc
  · intro hcn
    have := ha c hc
    rw [hcn] at this
    exact absurd this (by decide)
  · rcases addDot_last hc with h1 | h1
    · intro hcn
      have := sentenceTrim_last maxLen h1
      rw [hcn] at this
      exact absurd this (by decide)
    · intro hcn
      rw [h1] at hcn
      exact absurd hcn (by decide)

/-- The joined source titles contain no occurrence of a pattern free of
commas and spaces that is absent from every title. -/
theorem joinComma_no_occ {W : List Char} (hW : W ≠ []) (hcomma : ',' ∉ W)
    (hsp : ' ' ∉ W) :
    ∀ sources : List (List Char), (∀ t ∈ sources, hasSub t W = false) →
      hasSub (joinComma sources) W = false := by
  intro sources
  induction sources with
  | nil =>
    intro _
    cases W with
    | nil => exact absurd rfl hW
    | cons w W2 => rfl
  | cons t rest ih =>
    intro hsrc
    cases rest with
    | nil => simpa [joinComma] using hsrc t (by simp)
    | cons u rest2 =>
      have hj : joinComma (t :: u :: rest2) =
          t ++ ([',', ' '] ++ joinComma (u :: rest2)) := by
        simp only [joinComma]
        rw [List.append_assoc]
      rw [hj]
      refine hasSub_append_parts (hsrc t (by simp)) ?_ ?_
      · refine hasSub_append_parts ?_
          (ih (fun x hx => hsrc x (List.mem_cons_of_mem _ hx))) ?_
        · cases W with
          | nil => exact absurd rfl hW
          | cons w W2 =>
            refine hasSub_of_head_notMem ?_
            intro hw
            rcases (by simpa using hw : w = ',' ∨ w = ' ') with h | h
            · exact hcomma (h ▸ List.mem_cons_self _ _)
            · exact hsp (h ▸ List.mem_cons_self _ _)
        · intro A B hWAB hA hB hAsuf _
          have hlast : A.getLast? = some ' ' := by
            have := suffix_getLast hAsuf hA
            rw [← this]
            rfl
          have hmem : (' ' : Char) ∈ A := List.mem_of_getLast?_eq_some hlast
          exact hsp (by rw [hWAB]; exact List.mem_append_left B hmem)
      · intro A B hWAB hA hB _ hBsub
        cases B with
        | nil => exact hB rfl
        | cons b0 B2 =>
          have hb0 : b0 = ',' := by
            have := subAt_cons_head hBsub
            simpa using this.symm
          have hmem : (',' : Char) ∈ b0 :: B2 := by
            rw [hb0]
            exact List.mem_cons_self _ _
          exact hcomma (by rw [hWAB]; exact List.mem_append_right A hmem)

/-- The sources footer introduces no occurrence of the scrubbed patterns. -/
theorem appendSources_no_occ {W answer : List Char} {sources : List (List Char)}
    {omitSources : Bool} (hW : W ≠ []) (hcomma : ',' ∉ W) (hsp : ' ' ∉ W)
    (hnl : '\n' ∉ W ∨
      ((∀ c ∈ W, c = '\n') ∧ answer.getLast? ≠ some '\n'))
    (hans : hasSub answer W = false)
    (htag : hasSub sourcesTag W = false)
    (hsrc : ∀ t ∈ sources, hasSub t W = false) :
    hasSub (appendSources answer sources omitSources) W = false := by
  unfold appendSources
  split
  · rw [List.append_assoc]
    refine hasSub_append_parts hans ?_ ?_
    · refine hasSub_append_parts htag
        (joinComma_no_occ hW hcomma hsp sources hsrc) ?_
      intro A B hWAB hA hB hAsuf _
      have hlast : A.getLast? = some ' ' := by
        have := suffix_getLast hAsuf hA
        rw [← this]
        rfl
      have hmem : (' ' : Char) ∈ A := List.mem_of_getLast?_eq_some hlast
      exact hsp (by rw [hWAB]; exact List.mem_append_left B hmem)
    · intro A B hWAB hA hB hAsuf hBsub
      cases B with
      | nil => exact hB rfl
      | cons b0 B2 =>
        have hb0 : b0 = '\n' := by
          have hh := subAt_cons_head hBsub
          have hhead : (sourcesTag ++ joinComma sources).head? = some '\n' := rfl
          rw [hhead] at hh
          simpa using hh.symm
        rcases hnl with hni | ⟨hall, hlastne⟩
        · have hmem : ('\n' : Char) ∈ b0 :: B2 := by
            rw [hb0]
            exact List.mem_cons_self _ _
          exact hni (by rw [hWAB]; exact List.mem_append_right A hmem)
        · cases A with
          | nil => exact hA rfl
          | cons a0 A2 =>
            have hgl : (a0 :: A2).getLast? =
                some ((a0 :: A2).getLast (List.cons_ne_nil a0 A2)) :=
              List.getLast?_eq_getLast _ _
            have hclW : (a0 :: A2).getLast (List.cons_ne_nil a0 A2) ∈ W := by
              rw [hWAB]
              exact List.mem_append_left (b0 :: B2)
                (List.mem_of_getLast?_eq_some hgl)
            have hcl : (a0 :: A2).getLast (List.cons_ne_nil a0 A2) = '\n' :=
              hall _ hclW
            have hsl := suffix_getLast hAsuf (List.cons_ne_nil a0 A2)
            exact hlastne (by rw [hsl, hgl, hcl])
  · exact hans

/-- The C9 counterexample input. Its first line carries a well-formed
marker line (so `_extract_image_url` succeeds); its second line hides a
second marker split by an empty markdown image, whose stage-6 removal
recreates the marker after stages 1-5 have run, and a bare `https:// `
(nothing after the slashes), which stage 4 cannot match because its
character class needs at least one non-delimiter. -/
def cexC9 : List Char :=
  ("SAFEGUARD_IMAGE_URL:https://a.com/img\nSAFEGUARD_IMAGE_UR![]()" ++
    "L:https://evil x https:// y").data

/-- C9, counterexample: for this answer the claim premise holds — an image
URL is extracted — yet the text returned by the image-branch post-processing
(with one attributed source and sources not omitted) still contains the raw
marker prefix and a bare `https://` token: the claimed invariant is false. -/
theorem C9_image_cleanup_counterexample :
    _extract_image_url cexC9 = some ("https://a.com/img").data ∧
    imagePostProcess 1400 [("Doc A").data] false cexC9 =
      ("SAFEGUARD_IMAGE_URL: x https:// y\n\n*Sources:* Doc A").data ∧
    hasSub (imagePostProcess 1400 [("Doc A").data] false cexC9)
      imgMarker = true ∧
    hasSub (imagePostProcess 1400 [("Doc A").data] false cexC9)
      httpsTok = true := by
  refine ⟨by decide, by decide, by decide, by decide⟩

/-- C9, amended: under three provisos the invariant does hold of the
image-branch post-processing. Provided (1) the answer contains no `![`
(so the empty-image stage rewrites nothing), (2) after the three
line-removal stages every remaining `https://` is immediately followed by
a URL character — not whitespace, `)`, `]`, `>`, a double quote or the end
of text — so the URL stage removes every occurrence whole, and (3) the
attributed source titles contain no marker, no `https://` and no newline,
the returned answer text contains no occurrence of the raw marker prefix,
none of `https://`, and no run of three newlines (i.e. never more than one
consecutive blank line). -/
theorem C9_image_cleanup (answer : List Char) (sources : List (List Char))
    (omitSources : Bool) (maxLen : Nat)
    (hbang : hasSub answer bangBracket = false)
    (hlive : httpsLiveB (scrub m3 [] (scrub m2 [] (scrub m1 [] answer))) = true)
    (hsrc : ∀ t ∈ sources, hasSub t imgMarker = false ∧
      hasSub t httpsTok = false ∧ '\n' ∉ t) :
    hasSub (imagePostProcess maxLen sources omitSources answer)
      imgMarker = false ∧
    hasSub (imagePostProcess maxLen sources omitSources answer)
      httpsTok = false ∧
    hasSub (imagePostProcess maxLen sources omitSources answer)
      tripleNl = false := by
  simp only [imagePostProcess, cleanupImageText]
  set s1 := scrub m1 [] answer with hs1
  set s2 := scrub m2 [] s1 with hs2
  set s3 := scrub m3 [] s2 with hs3
  set s4 := scrub m4 [] s3 with hs4
  set s5 := scrub m5 [] s4 with hs5
  set s6 := scrub m6 [] s5 with hs6
  set s7 := scrub m7 ['\n', '\n'] s6 with hs7
  set s8 := scrub m8 [' '] s7 with hs8
  -- the `![` opener survives nowhere, so stage 6 is the identity
  have hB1 : hasSub s1 bangBracket = false := by
    rw [hs1]
    exact scrub_keep m1_post answer.length true answer bangBracket (le_refl _)
      (by decide) (by decide) hbang
  have hB2 : hasSub s2 bangBracket = false := by
    rw [hs2]
    exact scrub_keep m2_post s1.length true s1 bangBracket (le_refl _)
      (by decide) (by decide) hB1
  have hB3 : hasSub s3 bangBracket = false := by
    rw [hs3]
    exact scrub_keep m3_post s2.length true s2 bangBracket (le_refl _)
      (by decide) (by decide) hB2
  have hB4 : hasSub s4 bangBracket = false := by
    rw [hs4]
    exact scrub_keep m4_post s3.length true s3 bangBracket (le_refl _)
      (by decide) (by decide) hB3
  have hB5 : hasSub s5 bangBracket = false := by
    rw [hs5]
    exact scrub5_keep m5_false s4.length true s4 bangBracket (le_refl _)
      (by decide) (by decide) hB4
  have h6id : s6 = s5 := by
    rw [hs6]
    exact scrub6_id s5.length true s5 hB5
  -- the marker: killed by stage 1, preserved ever after
  have hM1 : hasSub s1 imgMarker = false := by
    rw [hs1]
    exact scrub1_kills answer.length true answer (le_refl _)
  have hM2 : hasSub s2 imgMarker = false := by
    rw [hs2]
    exact scrub_keep m2_post s1.length true s1 imgMarker (le_refl _)
      (by decide) (by decide) hM1
  have hM3 : hasSub s3 imgMarker = false := by
    rw [hs3]
    exact scrub_keep m3_post s2.length true s2 imgMarker (le_refl _)
      (by decide) (by decide) hM2
  have hM4 : hasSub s4 imgMarker = false := by
    rw [hs4]
    exact scrub_keep m4_post s3.length true s3 imgMarker (le_refl _)
      (by decide) (by decide) hM3
  have hM5 : hasSub s5 imgMarker = false := by
    rw [hs5]
    exact scrub5_keep m5_false s4.length true s4 imgMarker (le_refl _)
      (by decide) (by decide) hM4
  have hM6 : hasSub s6 imgMarker = false := by
    rw [h6id]
    exact hM5
  have hM7 : hasSub s7 imgMarker = false := by
    rw [hs7]
    exact scrubR_keep (by decide) s6.length true s6 imgMarker (le_refl _)
      (by decide) (by decide) hM6
  have hM8 : hasSub s8 imgMarker = false := by
    rw [hs8]
    exact scrubR_keep (by decide) s7.length true s7 imgMarker (le_refl _)
      (by decide) (by decide) hM7
  -- `https://`: killed by stage 4 on live input, preserved ever after
  have hH4 : hasSub s4 httpsTok = false := by
    rw [hs4]
    exact scrub4_kills s3.length true s3 (le_refl _) (httpsLiveB_to_P hlive)
  have hH5 : hasSub s5 httpsTok = false := by
    rw [hs5]
    exact scrub5_keep m5_false s4.length true s4 httpsTok (le_refl _)
      (by decide) (by decide) hH4
  have hH6 : hasSub s6 httpsTok = false := by
    rw [h6id]
    exact hH5
  have hH7 : hasSub s7 httpsTok = false := by
    rw [hs7]
    exact scrubR_keep (by decide) s6.length true s6 httpsTok (le_refl _)
      (by decide) (by decide) hH6
  have hH8 : hasSub s8 httpsTok = false := by
    rw [hs8]
    exact scrubR_keep (by decide) s7.length true s7 httpsTok (le_refl _)
      (by decide) (by decide) hH7
  -- triple newline: killed by stage 7, preserved by stage 8
  have hN7 : hasSub s7 tripleNl = false := by
    rw [hs7]
    exact scrub7_kills s6.length true s6 (le_refl _)
  have hN8 : hasSub s8 tripleNl = false := by
    rw [hs8]
    exact scrubR_keep (by decide) s7.length true s7 tripleNl (le_refl _)
      (by decide) (by decide) hN7
  -- strip and truncation
  have hMc : hasSub (stripList s8) imgMarker = false := hasSub_strip hM8
  have hHc : hasSub (stripList s8) httpsTok = false := hasSub_strip hH8
  have hNc : hasSub (stripList s8) tripleNl = false := hasSub_strip hN8
  have hMt : hasSub (truncateAnswer maxLen (stripList s8)) imgMarker = false :=
    hasSub_truncate (by decide) (by decide) maxLen hMc
  have hHt : hasSub (truncateAnswer maxLen (stripList s8)) httpsTok = false :=
    hasSub_truncate (by decide) (by decide) maxLen hHc
  have hNt : hasSub (truncateAnswer maxLen (stripList s8)) tripleNl = false :=
    hasSub_truncate (by decide) (by decide) maxLen hNc
  have hTlast : (truncateAnswer maxLen (stripList s8)).getLast? ≠ some '\n' := by
    intro hq
    exact truncate_last maxLen (fun c hc => strip_last hc) '\n' hq rfl
  refine ⟨?_, ?_, ?_⟩
  · exact appendSources_no_occ (by decide) (by decide) (by decide)
      (Or.inl (by decide)) hMt (by decide) (fun t ht => (hsrc t ht).1)
  · exact appendSources_no_occ (by decide) (by decide) (by decide)
      (Or.inl (by decide)) hHt (by decide) (fun t ht => (hsrc t ht).2.1)
  · exact appendSources_no_occ (by decide) (by decide) (by decide)
      (Or.inr ⟨by decide, hTlast⟩) hNt (by decide)
      (fun t ht => hasSub_of_head_notMem ((hsrc t ht).2.2))

/-- C9 witness: the amended theorem applied at a concrete answer with a
marker line and a live image URL, one source title and sources kept. -/
theorem C9_image_cleanup_witness :
    hasSub (imagePostProcess 1400 [("Doc A").data] false
      ("Stay safe.\nSAFEGUARD_IMAGE_URL:https://img.example/a.png").data)
      imgMarker = false ∧
    hasSub (imagePostProcess 1400 [("Doc A").data] false
      ("Stay safe.\nSAFEGUARD_IMAGE_URL:https://img.example/a.png").data)
      httpsTok = false ∧
    hasSub (imagePostProcess 1400 [("Doc A").data] false
      ("Stay safe.\nSAFEGUARD_IMAGE_URL:https://img.example/a.png").data)
      tripleNl = false :=
  C9_image_cleanup
    ("Stay safe.\nSAFEGUARD_IMAGE_URL:https://img.example/a.png").data
    [("Doc A").data] false 1400 (by decide) (by decide)
    (by
      intro t ht
      simp only [List.mem_singleton] at ht
      subst ht
      exact ⟨by decide, by decide, by decide⟩)

end SafeguardAI
